import Mathlib

/-!
Verification of the W3U Basic Navigator (`w3u_navigator.py`).

This file is a shallow embedding of the navigator's core: the JSON
sanitizer (`clean_json`), the JSON value model with a parser
(`json.loads`) and pretty-printer (`json.dump` with `indent=4`), the
cache/fetch protocol (`fetch_w3u`, `revalidate_and_clean_cache`), the URL
rewrite/classification logic, the option-list rendering of a document,
and the history/back discipline of `navigate_w3u`.  Machine strings are
modelled as Lean `String`/`List Char`; fallible Python code (exceptions)
is modelled with `Option`/`Except`.  Recursions that the Python runtime
performs by index scanning are modelled with an explicit fuel argument
that is always large enough for the inputs the program feeds them.
-/

namespace W3U

/-! ### JSON values

`json.loads` produces nested dicts/lists; we model them with a mutual
inductive so that all recursions over values are structural. -/

mutual

inductive JVal : Type where
  | null : JVal
  | bool : Bool → JVal
  | num : Int → JVal
  | str : String → JVal
  | arr : JArr → JVal
  | obj : JObj → JVal
  deriving DecidableEq

inductive JArr : Type where
  | nil : JArr
  | cons : JVal → JArr → JArr
  deriving DecidableEq

inductive JObj : Type where
  | nil : JObj
  | cons : String → JVal → JObj → JObj
  deriving DecidableEq

end

def JArr.toList : JArr → List JVal
  | .nil => []
  | .cons v t => v :: t.toList

def JObj.toList : JObj → List (String × JVal)
  | .nil => []
  | .cons k v t => (k, v) :: t.toList

/-- Association lookup in a JSON object, first binding wins
(models `dict.get(key)` on the order-preserving dict). -/
def JObj.find : JObj → String → Option JVal
  | .nil, _ => none
  | .cons k v t, key => if k = key then some v else t.find key

/-! ### Character classes used by the Python regexes -/

/-- Characters matched by Python's `\s` in a unicode pattern
(`str.isspace`). -/
def isPyWs (c : Char) : Bool :=
  c.toNat = 0x09 ∨ c.toNat = 0x0A ∨ c.toNat = 0x0B ∨ c.toNat = 0x0C ∨
  c.toNat = 0x0D ∨ c.toNat = 0x1C ∨ c.toNat = 0x1D ∨ c.toNat = 0x1E ∨
  c.toNat = 0x1F ∨ c.toNat = 0x20 ∨ c.toNat = 0x85 ∨ c.toNat = 0xA0 ∨
  c.toNat = 0x1680 ∨ (0x2000 ≤ c.toNat ∧ c.toNat ≤ 0x200A) ∨
  c.toNat = 0x2028 ∨ c.toNat = 0x2029 ∨ c.toNat = 0x202F ∨
  c.toNat = 0x205F ∨ c.toNat = 0x3000

/-- Characters matched by the regex class `[\x00-\x1F\x7F]` in
`clean_json`. -/
def isCtrlChar (c : Char) : Bool :=
  c.toNat ≤ 0x1F ∨ c.toNat = 0x7F

/-! ### Sanitizer (`clean_json`)

`re.sub(r',\s*([}\]])', r'\1', content)` scans left to right; at a comma
it greedily spans whitespace and succeeds only if a `}` or `]` follows
immediately, in which case the comma and the whitespace are deleted and
scanning resumes after the bracket.  The scan is modelled with fuel,
one unit per scan position; `length + 1` units always suffice. -/

def subTrailingFuel : Nat → List Char → List Char
  | 0, l => l
  | _ + 1, [] => []
  | fuel + 1, c :: rest =>
    if c = ',' then
      match rest.dropWhile isPyWs with
      | b :: tail =>
        if b = '}' ∨ b = ']' then b :: subTrailingFuel fuel tail
        else c :: subTrailingFuel fuel rest
      | [] => c :: subTrailingFuel fuel rest
    else c :: subTrailingFuel fuel rest

/-- First operation of `clean_json`: remove a comma followed by optional
whitespace and a closing `}` or `]`. -/
def removeTrailingCommas (s : String) : String :=
  ⟨subTrailingFuel (s.data.length + 1) s.data⟩

/-- Filter keeping the characters outside `[\x00-\x1F\x7F]`. -/
def fNC (l : List Char) : List Char :=
  l.filter (fun c => !isCtrlChar c)

/-- Second operation of `clean_json`: strip all characters in
`[\x00-\x1F\x7F]`. -/
def stripControlChars (s : String) : String :=
  ⟨fNC s.data⟩

/-- `clean_json` from `w3u_navigator.py` (lines 19-23): trailing-comma
repair, then control-character stripping. -/
def clean_json (s : String) : String :=
  stripControlChars (removeTrailingCommas s)


/-! ### Python string helpers -/

/-- Python's `needle in haystack`: `pat` occurs contiguously in `hay`. -/
def isSubstr (pat : List Char) : List Char → Bool
  | [] => pat.isEmpty
  | c :: t => pat.isPrefixOf (c :: t) || isSubstr pat t

/-- Substring test on `String`s, `pat in s` in Python. -/
def containsSub (s pat : String) : Bool :=
  isSubstr pat.data s.data

/-- Python's `str.replace` for a non-empty needle `p :: pat`: replace
every non-overlapping occurrence, scanning left to right.  Fuelled, one
unit per scan position; `length + 1` units suffice. -/
def replaceFuel (p : Char) (pat rep : List Char) : Nat → List Char → List Char
  | 0, l => l
  | _ + 1, [] => []
  | fuel + 1, c :: rest =>
    if (p :: pat).isPrefixOf (c :: rest) then
      rep ++ replaceFuel p pat rep fuel (rest.drop pat.length)
    else c :: replaceFuel p pat rep fuel rest

/-- `url.replace("pastebin.com", "pastebin.com/raw")`. -/
def replacePastebin (s : String) : String :=
  ⟨replaceFuel 'p' "astebin.com".data "pastebin.com/raw".data
    (s.data.length + 1) s.data⟩

/-- Python's `str.lower` (sufficient for the ASCII patterns used). -/
def pyLower (s : String) : String :=
  ⟨s.data.map Char.toLower⟩

/-- Python's `str.endswith`. -/
def endsWithStr (s pat : String) : Bool :=
  pat.data.isSuffixOf s.data

/-- Python's `str.startswith`. -/
def startsWithStr (s pat : String) : Bool :=
  pat.data.isPrefixOf s.data

/-- Python's `str.strip()` on a character list: drop leading and
trailing whitespace. -/
def pyStripChars (l : List Char) : List Char :=
  ((l.dropWhile isPyWs).reverse.dropWhile isPyWs).reverse

/-- Python's `str.strip()`. -/
def pyStrip (s : String) : String :=
  ⟨pyStripChars s.data⟩

/-! ### URL Classifier (`navigate_w3u` lines 176-190) -/

/-- Alias rewrite (lines 176-178): a URL containing `pastebin.com` but
not containing `raw` is rewritten to the raw-content form. -/
def rewriteUrl (u : String) : String :=
  if containsSub u "pastebin.com" ∧ ¬ containsSub u "raw" then
    replacePastebin u
  else u

inductive UrlClass : Type where
  | subDocument : UrlClass
  | media : UrlClass
  | webPage : UrlClass
  deriving DecidableEq

/-- Classification of a selected URL, in the priority order of the
`if`/`elif`/`else` chain at lines 181-190. -/
def classifyUrl (u : String) : UrlClass :=
  if endsWithStr u ".w3u" ∨ endsWithStr u ".json" ∨
      containsSub u "raw.githubusercontent.com" ∨
      containsSub u "pastebin.com/raw" then
    .subDocument
  else if endsWithStr u ".m3u" ∨ containsSub (pyLower u) "type=m3u_plus" ∨
      endsWithStr u ".mkv" ∨ endsWithStr u ".mp4" then
    .media
  else
    .webPage


/-! ### JSON parsing (`json.loads`)

A recursive-descent parser over `List Char`, fuelled (fuel decreases on
every nested call; `2 * length + 4` units always suffice for the texts
the program parses).  Numbers are decimal integers; a fractional or
exponent part makes the parse fail, which restricts the model to the
float-free fragment actually exercised by `.w3u` documents. -/

def isJsonWs (c : Char) : Bool :=
  c = ' ' ∨ c = '\t' ∨ c = '\n' ∨ c = '\r'

def skipWs (l : List Char) : List Char :=
  l.dropWhile isJsonWs

def isDigitChar (c : Char) : Bool :=
  48 ≤ c.toNat ∧ c.toNat ≤ 57

def digitsVal (l : List Char) : Nat :=
  l.foldl (fun a c => a * 10 + (c.toNat - 48)) 0

def hexVal (c : Char) : Option Nat :=
  if '0' ≤ c ∧ c ≤ '9' then some (c.toNat - 48)
  else if 'a' ≤ c ∧ c ≤ 'f' then some (c.toNat - 87)
  else if 'A' ≤ c ∧ c ≤ 'F' then some (c.toNat - 55)
  else none

def escDecode (e : Char) : Option Char :=
  if e = '"' then some '"'
  else if e = '\\' then some '\\'
  else if e = '/' then some '/'
  else if e = 'b' then some (Char.ofNat 8)
  else if e = 'f' then some (Char.ofNat 12)
  else if e = 'n' then some '\n'
  else if e = 'r' then some '\r'
  else if e = 't' then some '\t'
  else none

/-- String-literal body (after the opening quote): the decoded
characters and the remainder after the closing quote. -/
def parseStrBody : Nat → List Char → Option (List Char × List Char)
  | 0, _ => none
  | _ + 1, [] => none
  | fuel + 1, c :: rest =>
    if c = '"' then some ([], rest)
    else if c = '\\' then
      match rest with
      | [] => none
      | e :: rest2 =>
        if e = 'u' then
          match rest2 with
          | a :: b :: c2 :: d :: rest3 => do
            let ha ← hexVal a
            let hb ← hexVal b
            let hc ← hexVal c2
            let hd ← hexVal d
            let (s, r) ← parseStrBody fuel rest3
            pure (Char.ofNat (((ha * 16 + hb) * 16 + hc) * 16 + hd) :: s, r)
          | _ => none
        else do
          let ch ← escDecode e
          let (s, r) ← parseStrBody fuel rest2
          pure (ch :: s, r)
    else do
      let (s, r) ← parseStrBody fuel rest
      pure (c :: s, r)

/-- A character that would extend an integer literal into a float
(fraction or exponent part). -/
def numExtChar (c : Char) : Bool :=
  c.toNat = 46 ∨ c.toNat = 101 ∨ c.toNat = 69

def headIsNumExt (l : List Char) : Bool :=
  match l.head? with
  | some c => numExtChar c
  | none => false

def headNotDigit (l : List Char) : Bool :=
  match l.head? with
  | some c => !isDigitChar c
  | none => true

/-- A maximal digit run and its value; fails when empty or when a
fraction or exponent follows (floats are outside the model). -/
def parseDigitRun (l1 : List Char) : Option (Nat × List Char) :=
  let ds := l1.takeWhile isDigitChar
  let rest := l1.dropWhile isDigitChar
  if ds.isEmpty then none
  else if headIsNumExt rest then none
  else some (digitsVal ds, rest)

/-- Integer literal at the head of `l` (head already known to be `-` or
a digit). -/
def parseNumAt (l : List Char) : Option (Int × List Char) :=
  match l with
  | '-' :: l1 =>
    match parseDigitRun l1 with
    | none => none
    | some (n, rest) => some (-(n : Int), rest)
  | l1 =>
    match parseDigitRun l1 with
    | none => none
    | some (n, rest) => some ((n : Int), rest)

mutual

def parseVal : Nat → List Char → Option (JVal × List Char)
  | 0, _ => none
  | fuel + 1, l =>
    match skipWs l with
    | [] => none
    | c :: rest =>
      if c = '{' then
        match skipWs rest with
        | '}' :: rest2 => some (.obj .nil, rest2)
        | _ => do
          let (fs, r) ← parseObjItems fuel rest
          pure (.obj fs, r)
      else if c = '[' then
        match skipWs rest with
        | ']' :: rest2 => some (.arr .nil, rest2)
        | _ => do
          let (items, r) ← parseArrItems fuel rest
          pure (.arr items, r)
      else if c = '"' then do
        let (s, r) ← parseStrBody (rest.length + 1) rest
        pure (.str ⟨s⟩, r)
      else if c = 't' then
        if "rue".data.isPrefixOf rest then some (.bool true, rest.drop 3) else none
      else if c = 'f' then
        if "alse".data.isPrefixOf rest then some (.bool false, rest.drop 4) else none
      else if c = 'n' then
        if "ull".data.isPrefixOf rest then some (.null, rest.drop 3) else none
      else if c = '-' ∨ isDigitChar c then do
        let (n, r) ← parseNumAt (c :: rest)
        pure (.num n, r)
      else none

def parseArrItems : Nat → List Char → Option (JArr × List Char)
  | 0, _ => none
  | fuel + 1, l => do
    let (v, r) ← parseVal fuel l
    match skipWs r with
    | ',' :: r2 => do
      let (tl, r3) ← parseArrItems fuel r2
      pure (.cons v tl, r3)
    | ']' :: r2 => pure (.cons v .nil, r2)
    | _ => none

def parseObjItems : Nat → List Char → Option (JObj × List Char)
  | 0, _ => none
  | fuel + 1, l =>
    match skipWs l with
    | '"' :: rest => do
      let (k, r) ← parseStrBody (rest.length + 1) rest
      match skipWs r with
      | ':' :: r2 => do
        let (v, r3) ← parseVal fuel r2
        match skipWs r3 with
        | ',' :: r4 => do
          let (tl, r5) ← parseObjItems fuel r4
          pure (.cons ⟨k⟩ v tl, r5)
        | '}' :: r4 => pure (.cons ⟨k⟩ v .nil, r4)
        | _ => none
      | _ => none
    | _ => none

end

/-- `json.loads`: parse the whole text, allowing trailing whitespace. -/
def json_loads (s : String) : Option JVal :=
  match parseVal (2 * s.data.length + 4) s.data with
  | some (v, rest) => if skipWs rest = [] then some v else none
  | none => none

/-- `validate_json` from `w3u_navigator.py` (lines 25-32): a structural
parse used as a yes/no gate. -/
def validate_json (s : String) : Bool :=
  (json_loads s).isSome

/-! ### JSON serialization (`json.dump(data, file, ensure_ascii=False, indent=4)`) -/

def spacesChars (n : Nat) : List Char :=
  List.replicate n ' '

def hexDigitChar (n : Nat) : Char :=
  if n < 10 then Char.ofNat (48 + n) else Char.ofNat (87 + n)

/-- Escaping of one character inside a dumped string literal
(`ensure_ascii=False`): quote, backslash and control characters are
escaped, everything else is emitted raw. -/
def escEncode (c : Char) : List Char :=
  if c = '"' then ['\\', '"']
  else if c = '\\' then ['\\', '\\']
  else if c = '\n' then ['\\', 'n']
  else if c = '\t' then ['\\', 't']
  else if c = '\r' then ['\\', 'r']
  else if c.toNat = 8 then ['\\', 'b']
  else if c.toNat = 12 then ['\\', 'f']
  else if c.toNat < 0x20 then
    ['\\', 'u', '0', '0', hexDigitChar (c.toNat / 16), hexDigitChar (c.toNat % 16)]
  else [c]

def escapeChars (l : List Char) : List Char :=
  l.foldr (fun c acc => escEncode c ++ acc) []

def dumpStrChars (s : String) : List Char :=
  '"' :: escapeChars s.data ++ ['"']

def natCharsFuel : Nat → Nat → List Char
  | 0, _ => []
  | fuel + 1, n =>
    if n < 10 then [Char.ofNat (48 + n)]
    else natCharsFuel fuel (n / 10) ++ [Char.ofNat (48 + n % 10)]

/-- Decimal digits of a natural number. -/
def natChars (n : Nat) : List Char :=
  natCharsFuel (n + 1) n

/-- Python `repr` of an integer. -/
def intChars (i : Int) : List Char :=
  if i < 0 then '-' :: natChars i.natAbs else natChars i.toNat

mutual

def dumpAt : Nat → JVal → List Char
  | _, .null => "null".data
  | _, .bool true => "true".data
  | _, .bool false => "false".data
  | _, .num i => intChars i
  | _, .str s => dumpStrChars s
  | ind, .arr a =>
    match a with
    | .nil => ['[', ']']
    | .cons _ _ => '[' :: '\n' :: dumpArrItems (ind + 4) a ++ '\n' :: spacesChars ind ++ [']']
  | ind, .obj o =>
    match o with
    | .nil => ['{', '}']
    | .cons _ _ _ => '{' :: '\n' :: dumpObjItems (ind + 4) o ++ '\n' :: spacesChars ind ++ ['}']

def dumpArrItems : Nat → JArr → List Char
  | _, .nil => []
  | ind, .cons x .nil => spacesChars ind ++ dumpAt ind x
  | ind, .cons x (.cons y ys) =>
    spacesChars ind ++ dumpAt ind x ++ ',' :: '\n' :: dumpArrItems ind (.cons y ys)

def dumpObjItems : Nat → JObj → List Char
  | _, .nil => []
  | ind, .cons k v .nil => spacesChars ind ++ dumpStrChars k ++ ':' :: ' ' :: dumpAt ind v
  | ind, .cons k v (.cons k2 v2 t) =>
    spacesChars ind ++ dumpStrChars k ++ ':' :: ' ' :: dumpAt ind v ++
      ',' :: '\n' :: dumpObjItems ind (.cons k2 v2 t)

end

/-- The canonical cache text: `json.dump(data, file, ensure_ascii=False, indent=4)`. -/
def json_dump (v : JVal) : String :=
  ⟨dumpAt 0 v⟩

/-! ### Documents whose strings need no JSON escaping

`json.dump` emits such strings verbatim, which makes the serialized
form analyzable; every string of an actual `.w3u` document (names and
URLs) is of this kind. -/

/-- A character emitted raw and unescaped by `json.dump` and untouched
by the control-character strip: not a quote, not a backslash, not a
control character, not `DEL`. -/
def tameChar (c : Char) : Bool :=
  c.toNat ≠ 34 ∧ c.toNat ≠ 92 ∧ 0x20 ≤ c.toNat ∧ c.toNat ≠ 0x7F

mutual

def tameVal : JVal → Bool
  | .null => true
  | .bool _ => true
  | .num _ => true
  | .str s => s.data.all tameChar
  | .arr a => tameArr a
  | .obj o => tameObj o

def tameArr : JArr → Bool
  | .nil => true
  | .cons x t => tameVal x && tameArr t

def tameObj : JObj → Bool
  | .nil => true
  | .cons k v t => k.data.all tameChar && tameVal v && tameObj t

end

/-! `needV v` is a fuel amount sufficient for `parseVal` on the
serialization of `v`. -/

mutual

def needV : JVal → Nat
  | .arr .nil => 1
  | .arr (.cons x t) => 1 + needA (.cons x t)
  | .obj .nil => 1
  | .obj (.cons k v t) => 1 + needO (.cons k v t)
  | _ => 1

def needA : JArr → Nat
  | .nil => 1
  | .cons x t => 1 + needV x + needA t

def needO : JObj → Nat
  | .nil => 1
  | .cons _ v t => 1 + needV v + needO t

end



/-! ### Cache filename (`get_filename_from_url`, lines 46-50) -/

/-- Remainder after the first occurrence of `pat`, scanning left to
right (`none` when `pat` does not occur). -/
def splitAfterSub (pat : List Char) : List Char → Option (List Char)
  | [] => if pat.isEmpty then some [] else none
  | c :: rest =>
    if pat.isPrefixOf (c :: rest) then some ((c :: rest).drop pat.length)
    else splitAfterSub pat rest

/-- `urlparse(url).path`: the part after the network location, cut at a
query or fragment marker. -/
def urlPathChars (l : List Char) : List Char :=
  match splitAfterSub "://".data l with
  | some afterScheme =>
    (afterScheme.dropWhile (fun c => c ≠ '/')).takeWhile (fun c => c ≠ '?' ∧ c ≠ '#')
  | none => l.takeWhile (fun c => c ≠ '?' ∧ c ≠ '#')

/-- `os.path.basename`: the segment after the last `/`. -/
def basenameChars (l : List Char) : List Char :=
  (l.reverse.takeWhile (fun c => c ≠ '/')).reverse

/-- `get_filename_from_url`: basename of the URL path, or `default.w3u`
when the basename is empty. -/
def get_filename_from_url (url : String) : String :=
  let b := basenameChars (urlPathChars url.data)
  if b.isEmpty then "default.w3u" else ⟨b⟩


/-! ### Cache store

The working directory holding one file per cached document, modelled as
an association list from filename to file content, kept duplicate-free
by construction. -/

abbrev Cache : Type := List (String × String)

def cacheLookup (key : String) : Cache → Option String
  | [] => none
  | (k, v) :: t => if k = key then some v else cacheLookup key t

def cacheErase (key : String) (c : Cache) : Cache :=
  c.filter (fun kv => kv.1 ≠ key)

/-- Writing a file: any prior slot content is overwritten. -/
def cacheSet (key content : String) (c : Cache) : Cache :=
  (key, content) :: cacheErase key c

def emptyCache : Cache := []

/-! ### Document Loader (`fetch_w3u`, lines 52-91)

The network is an explicit parameter: either a transport failure
(`requests.get` raising) or a response with a status and a body.  User
interaction and launches are recorded as events. -/

inductive NetResult : Type where
  | transportFail : NetResult
  | response : Nat → String → NetResult
  deriving DecidableEq

inductive FetchEvent : Type where
  | m3uPromptShown : String → FetchEvent
  | vlcLaunched : String → FetchEvent
  | errorReported : FetchEvent
  | cacheRemoved : String → FetchEvent
  | cacheSaved : String → FetchEvent
  deriving DecidableEq

structure FetchResult : Type where
  doc : Option JVal
  cache : Cache
  events : List FetchEvent

/-- Network half of `fetch_w3u` (lines 62-91): sniff for `#EXTM3U`
before the status check, then sanitize, validate, parse and commit. -/
def fetchNet (url filename : String) (cache : Cache) (net : NetResult)
    (confirmVLC : Bool) : FetchResult :=
  match net with
  | .transportFail => ⟨none, cache, [.errorReported]⟩
  | .response status text =>
    if startsWithStr (pyStrip text) "#EXTM3U" then
      ⟨none, cache, .m3uPromptShown url :: if confirmVLC then [.vlcLaunched url] else []⟩
    else if 400 ≤ status then
      ⟨none, cache, [.errorReported]⟩
    else
      let cleaned := clean_json text
      match json_loads cleaned with
      | none => ⟨none, cache, [.errorReported]⟩
      | some data => ⟨some data, cacheSet filename (json_dump data) cache, [.cacheSaved filename]⟩

/-- `fetch_w3u`: cache check with revalidation (`revalidate_and_clean_cache`,
lines 34-44) and self-healing rewrite, falling back to the network on a
miss or a corrupt slot (which is removed, line 60). -/
def fetch_w3u (url : String) (cache : Cache) (net : NetResult)
    (confirmVLC : Bool) : FetchResult :=
  let filename := get_filename_from_url url
  match cacheLookup filename cache with
  | some content =>
    let cleaned := clean_json content
    match json_loads cleaned with
    | some data => ⟨some data, cacheSet filename cleaned cache, []⟩
    | none =>
      let r := fetchNet url filename (cacheErase filename cache) net confirmVLC
      ⟨r.doc, r.cache, .cacheRemoved filename :: r.events⟩
  | none => fetchNet url filename cache net confirmVLC


/-! ### Python dynamic operations on JSON values -/

/-- Python truthiness of a JSON value (`if not data`, `if groups`). -/
def truthy : JVal → Bool
  | .null => false
  | .bool b => b
  | .num n => n ≠ 0
  | .str s => ¬ s.isEmpty
  | .arr a => a ≠ .nil
  | .obj o => o ≠ .nil

/-- `value.get(key, default)`: an `AttributeError` on anything that is
not a dict. -/
def pyGet (v : JVal) (key : String) (dflt : JVal) : Except String JVal :=
  match v with
  | .obj o => .ok ((o.find key).getD dflt)
  | _ => .error "AttributeError"

/-- Iteration (`for x in v`): lists yield elements, strings yield
one-character strings, dicts yield their keys, everything else raises
`TypeError`. -/
def pyIter : JVal → Except String (List JVal)
  | .arr a => .ok a.toList
  | .str s => .ok (s.data.map (fun c => .str ⟨[c]⟩))
  | .obj o => .ok (o.toList.map (fun kv => .str kv.1))
  | _ => .error "TypeError"

/-! ### Render (`navigate_w3u`, lines 109-155)

One render of the current document builds the flat `options` list; the
entry at position `i` is printed with index `i`, so contiguity of the
0-based indices is the list structure itself.  Each option pairs the
selected entry with its parent group (`None` at top level). -/

/-- One rendered option: `(entry, parent)` as appended to `options`. -/
abbrev NavOption : Type := JVal × Option JVal

/-- `format_url` (lines 93-99): strip a leading `https://`. -/
def format_url (url : String) : String :=
  if startsWithStr url "https://" then ⟨url.data.drop 8⟩ else url

/-- `format_url` applied to the value that `.get("url", "No URL")`
returned: `url.startswith("https://")` raises `AttributeError` unless
that value is a string. -/
def formatUrlVal : JVal → Except String String
  | .str s => .ok (format_url s)
  | _ => .error "AttributeError"

/-- Direct stations of a group (lines 131-136): one indented option per
station, with the group as parent.  Written with explicit matches: an
`error` models the Python exception aborting the whole render. -/
def renderStationsOf (parent : JVal) : List JVal → Except String (List NavOption)
  | [] => .ok []
  | st :: rest =>
    match pyGet st "url" (.str "No URL") with
    | .error e => .error e
    | .ok u =>
      match formatUrlVal u with
      | .error e => .error e
      | .ok _ =>
        match pyGet st "name" (.str "Unnamed Station") with
        | .error e => .error e
        | .ok _ =>
          match renderStationsOf parent rest with
          | .error e => .error e
          | .ok tail => .ok ((st, some parent) :: tail)

/-- Nested groups of a group (lines 137-149): each nested group is one
option followed by its own direct stations. -/
def renderNestedOf (parent : JVal) : List JVal → Except String (List NavOption)
  | [] => .ok []
  | ng :: rest =>
    match pyGet ng "url" (.str "No URL") with
    | .error e => .error e
    | .ok u =>
      match formatUrlVal u with
      | .error e => .error e
      | .ok _ =>
        match pyGet ng "name" (.str "Unnamed Nested Group") with
        | .error e => .error e
        | .ok _ =>
          match pyGet ng "stations" (.arr .nil) with
          | .error e => .error e
          | .ok sts =>
            match pyIter sts with
            | .error e => .error e
            | .ok stl =>
              match renderStationsOf ng stl with
              | .error e => .error e
              | .ok stOpts =>
                match renderNestedOf parent rest with
                | .error e => .error e
                | .ok tail => .ok ((ng, some parent) :: stOpts ++ tail)

/-- Top-level groups (lines 125-149): the group option, its direct
stations, then its nested groups with their stations. -/
def renderGroups : List JVal → Except String (List NavOption)
  | [] => .ok []
  | g :: rest =>
    match pyGet g "url" (.str "No URL") with
    | .error e => .error e
    | .ok u =>
      match formatUrlVal u with
      | .error e => .error e
      | .ok _ =>
        match pyGet g "name" (.str "Unnamed Group") with
        | .error e => .error e
        | .ok _ =>
          match pyGet g "stations" (.arr .nil) with
          | .error e => .error e
          | .ok sts =>
            match pyIter sts with
            | .error e => .error e
            | .ok stl =>
              match renderStationsOf g stl with
              | .error e => .error e
              | .ok stOpts =>
                match pyGet g "groups" (.arr .nil) with
                | .error e => .error e
                | .ok ngs =>
                  match pyIter ngs with
                  | .error e => .error e
                  | .ok ngl =>
                    match renderNestedOf g ngl with
                    | .error e => .error e
                    | .ok ngOpts =>
                      match renderGroups rest with
                      | .error e => .error e
                      | .ok tail => .ok ((g, none) :: stOpts ++ ngOpts ++ tail)

/-- Top-level stations when there are no groups (lines 150-155). -/
def renderFlatStations : List JVal → Except String (List NavOption)
  | [] => .ok []
  | st :: rest =>
    match pyGet st "url" (.str "No URL") with
    | .error e => .error e
    | .ok u =>
      match formatUrlVal u with
      | .error e => .error e
      | .ok _ =>
        match pyGet st "name" (.str "Unnamed Station") with
        | .error e => .error e
        | .ok _ =>
          match renderFlatStations rest with
          | .error e => .error e
          | .ok tail => .ok ((st, none) :: tail)

/-- One render of a document (lines 117-155): the flat `options` list,
or the uncaught Python exception the render would raise. -/
def renderOptions (data : JVal) : Except String (List NavOption) :=
  match pyGet data "name" (.str "Unknown") with
  | .error e => .error e
  | .ok _ =>
    match pyGet data "groups" (.arr .nil) with
    | .error e => .error e
    | .ok groups =>
      match pyGet data "stations" (.arr .nil) with
      | .error e => .error e
      | .ok stations =>
        if truthy groups then
          match pyIter groups with
          | .error e => .error e
          | .ok gl => renderGroups gl
        else if truthy stations then
          match pyIter stations with
          | .error e => .error e
          | .ok sl => renderFlatStations sl
        else .ok []

/-! ### Well-formed documents

A value with the `Document` shape of the data model: an object whose
`groups` member (when present) is an array of group objects, and whose
`stations` member (when present) is an array of station objects, with
the same conditions one level down for groups nested in groups. -/

def isObjVal : JVal → Bool
  | .obj _ => true
  | _ => false

/-- Total field access used to state the shape conditions (the default
mirrors the `.get` defaults of the render). -/
def objGet (v : JVal) (key : String) (dflt : JVal) : JVal :=
  match v with
  | .obj o => (o.find key).getD dflt
  | _ => dflt

/-- The elements of an array value, `[]` on anything else. -/
def asList : JVal → List JVal
  | .arr a => a.toList
  | _ => []

/-- A valid `stations` value: an array of objects. -/
def wfStationArr (v : JVal) : Bool :=
  match v with
  | .arr a => a.toList.all isObjVal
  | _ => false

/-- A valid group nested inside a group: an object whose `stations`
member (when present) is an array of objects. -/
def wfNestedGroup (v : JVal) : Bool :=
  isObjVal v && wfStationArr (objGet v "stations" (.arr .nil))

/-- A valid top-level group: an object with valid `stations` and whose
`groups` member (when present) is an array of valid nested groups. -/
def wfGroup (v : JVal) : Bool :=
  isObjVal v && wfStationArr (objGet v "stations" (.arr .nil)) &&
    (match objGet v "groups" (.arr .nil) with
     | .arr a => a.toList.all wfNestedGroup
     | _ => false)

/-- A value with the `Document` shape of the data model. -/
def wfDoc (v : JVal) : Bool :=
  isObjVal v &&
    (match objGet v "groups" (.arr .nil) with
     | .arr a => a.toList.all wfGroup
     | _ => false) &&
    wfStationArr (objGet v "stations" (.arr .nil))

/-! The data model gives every group and station an `url: optional
string` member.  The refined predicates below add that condition to the
structural shape: every rendered entry is an object whose `url` member
(when present) holds a string, so `format_url` applies to it without
raising.  (An absent member defaults to the string `"No URL"`.) -/

/-- A renderable entry (group or station) per the data model: an object
whose `url` member, when present, is a string. -/
def wfEntry (v : JVal) : Bool :=
  isObjVal v &&
    (match objGet v "url" (.str "No URL") with
     | .str _ => true
     | _ => false)

/-- A valid `stations` value: an array of station entries. -/
def wfStationArrR (v : JVal) : Bool :=
  match v with
  | .arr a => a.toList.all wfEntry
  | _ => false

/-- A valid nested group per the data model. -/
def wfNestedGroupR (v : JVal) : Bool :=
  wfEntry v && wfStationArrR (objGet v "stations" (.arr .nil))

/-- A valid top-level group per the data model. -/
def wfGroupR (v : JVal) : Bool :=
  wfEntry v && wfStationArrR (objGet v "stations" (.arr .nil)) &&
    (match objGet v "groups" (.arr .nil) with
     | .arr a => a.toList.all wfNestedGroupR
     | _ => false)

/-- A value with the `Document` shape of the data model, url members
included: the render visits it without raising. -/
def wfDocR (v : JVal) : Bool :=
  isObjVal v &&
    (match objGet v "groups" (.arr .nil) with
     | .arr a => a.toList.all wfGroupR
     | _ => false) &&
    wfStationArrR (objGet v "stations" (.arr .nil))

/-! ### Specification-side flattening

Modelled from the spec's render sentence: "for each top-level group in
order — print it as an option, then each of its direct stations as
indented sub-options, then each of its directly nested groups as a
further-indented sub-option followed immediately by that nested group's
own direct stations", and "if the Document has no groups, list its
top-level stations as flat options".  Used only to compare the render
against the claimed order. -/
/-- The spec's entry order below one nested group: the nested group
itself, then its direct stations. -/
def specNestedBlock (g ng : JVal) : List NavOption :=
  (ng, some g) :: (asList (objGet ng "stations" (.arr .nil))).map (fun s => (s, some ng))

/-- The spec's entry order below one top-level group: the group, its
direct stations, then each directly nested group with its stations. -/
def specGroupBlock (g : JVal) : List NavOption :=
  (g, none) ::
    ((asList (objGet g "stations" (.arr .nil))).map (fun s => (s, some g)) ++
      (asList (objGet g "groups" (.arr .nil))).flatMap (specNestedBlock g))

def specFlatten (v : JVal) : List NavOption :=
  if truthy (objGet v "groups" (.arr .nil)) then
    (asList (objGet v "groups" (.arr .nil))).flatMap specGroupBlock
  else if truthy (objGet v "stations" (.arr .nil)) then
    (asList (objGet v "stations" (.arr .nil))).map (fun s => (s, none))
  else []

/-- Number of entries visited under the bounded two-level nesting rule:
one per top-level group, plus its direct stations, plus one per nested
group plus that nested group's direct stations; or the top-level
stations when there are no groups. -/
def countEntries (v : JVal) : Nat :=
  if truthy (objGet v "groups" (.arr .nil)) then
    ((asList (objGet v "groups" (.arr .nil))).map (fun g =>
      1 + (asList (objGet g "stations" (.arr .nil))).length +
        ((asList (objGet g "groups" (.arr .nil))).map (fun ng =>
          1 + (asList (objGet ng "stations" (.arr .nil))).length)).sum)).sum
  else if truthy (objGet v "stations" (.arr .nil)) then
    (asList (objGet v "stations" (.arr .nil))).length
  else 0

/-! ### Command loop (`navigate_w3u`, lines 101-202) -/

/-- The branch taken for one line of user input (stripped and
lower-cased first, line 160), against the current option count. -/
inductive LoopAction : Type where
  | quit : LoopAction
  | back : LoopAction
  | select : Nat → LoopAction
  | invalid : LoopAction
  deriving DecidableEq

/-- `choice.isdigit()` (ASCII digits). -/
def isDigitStr (s : String) : Bool :=
  ¬ s.data.isEmpty && s.data.all isDigitChar

/-- `int(choice)` for a digit string. -/
def strToNat (s : String) : Nat :=
  digitsVal s.data

/-- The `if`/`elif` chain at lines 162-200, in source order: `q`, `b`,
in-range numeral, empty input (back), anything else invalid. -/
def parseChoice (raw : String) (optionCount : Nat) : LoopAction :=
  let c := pyLower (pyStrip raw)
  if c = "q" then .quit
  else if c = "b" then .back
  else if isDigitStr c ∧ strToNat c < optionCount then .select (strToNat c)
  else if c = "" then .back
  else .invalid

/-- Outcome of the back branch (lines 164-171 and 191-199). -/
inductive BackOutcome : Type where
  | notice : List String → BackOutcome
  | reenter : String → List String → BackOutcome
  deriving DecidableEq

/-- The back branch: with more than one history entry, pop the current
URL and the one before it and re-enter navigation at the latter;
otherwise show `No parent directory.` and redisplay the page with the
history (and the current document) untouched.  The history list keeps
Python's stack order: the last element is the top. -/
def backCommand (history : List String) : BackOutcome :=
  if 1 < history.length then
    match history.dropLast.getLast? with
    | some prev => .reenter prev history.dropLast.dropLast
    | none => .notice history
  else .notice history

/-- Entry into `navigate_w3u` (lines 101-107): a falsy fetch result
returns at once leaving the history untouched; otherwise the URL is
appended to the history and the loop starts on the fetched document. -/
def enterNav (fetched : Option JVal) (url : String) (history : List String) :
    Option (JVal × List String) :=
  match fetched with
  | none => none
  | some d => if truthy d then some (d, history ++ [url]) else none


/-! ### The worked example document of the spec -/

def cnnStation : JVal :=
  .obj (.cons "name" (.str "CNN") (.cons "url" (.str "https://x/cnn.m3u") .nil))

def newsGroup : JVal :=
  .obj (.cons "name" (.str "News") (.cons "stations" (.arr (.cons cnnStation .nil)) .nil))

def exampleDoc : JVal :=
  .obj (.cons "name" (.str "Root") (.cons "groups" (.arr (.cons newsGroup .nil)) .nil))

/-! ## Helper lemmas -/

theorem filter_idem (p : Char → Bool) (l : List Char) :
    (l.filter p).filter p = l.filter p := by
  induction l with
  | nil => rfl
  | cons c t ih => by_cases h : p c <;> simp [List.filter_cons, h, ih]

theorem stripControl_idem (s : String) :
    stripControlChars (stripControlChars s) = stripControlChars s :=
  congrArg String.mk (filter_idem _ s.data)

/-! ## C1: sanitizer idempotence -/

/-- C1: the claim `sanitize(sanitize(x)) == sanitize(x)` for every input
text is false of `clean_json`: on `",,}"` the first pass only removes
the second comma (the scan fails at the first comma because another
comma, not a bracket, follows it), and the second pass removes the
newly exposed trailing comma as well. -/
theorem C1_counterexample :
    clean_json (clean_json ",,\x7d") ≠ clean_json ",,\x7d" := by decide

/-- C1 (amended): the sanitizer is idempotent on every input on which
one application suffices, i.e. whenever the trailing-comma pass leaves
`sanitize(x)` unchanged; the control-character pass alone is always
idempotent. -/
theorem C1_amended_idempotent_when_stable (s : String)
    (h : removeTrailingCommas (clean_json s) = clean_json s) :
    clean_json (clean_json s) = clean_json s := by
  show stripControlChars (removeTrailingCommas (clean_json s)) = clean_json s
  rw [h]
  show stripControlChars (stripControlChars (removeTrailingCommas s)) = _
  rw [stripControl_idem]
  rfl

theorem C1_amended_idempotent_when_stable_witness :
    removeTrailingCommas (clean_json "\x7b\"a\": 1,\x7d") = clean_json "\x7b\"a\": 1,\x7d" ∧
      clean_json (clean_json "\x7b\"a\": 1,\x7d") = clean_json "\x7b\"a\": 1,\x7d" :=
  ⟨by decide, C1_amended_idempotent_when_stable _ (by decide)⟩

/-! ## C2 and C3: the back command -/

/-- C2: a back command on a history with more than one entry discards
the current URL and the one before it, re-enters navigation at the URL
that was current before the page being backed out of (the last entry of
`history.dropLast`), and once that URL reloads successfully it is again
the top of the history, which is exactly one entry shorter than before
the command. -/
theorem C2_back_pops_two_and_reenters (history : List String) (d : JVal)
    (h : 1 < history.length) (hd : truthy d = true) :
    backCommand history =
        .reenter (history.dropLast.getLastD "") history.dropLast.dropLast ∧
      history.dropLast.getLast? = some (history.dropLast.getLastD "") ∧
      enterNav (some d) (history.dropLast.getLastD "") history.dropLast.dropLast =
        some (d, history.dropLast) ∧
      history.dropLast.length + 1 = history.length := by
  have hne : history.dropLast ≠ [] := by
    intro hh
    have hlen := congrArg List.length hh
    simp only [List.length_dropLast, List.length_nil] at hlen
    omega
  have hx : history.dropLast.getLast? = some (history.dropLast.getLast hne) :=
    List.getLast?_eq_getLast _ hne
  have hgd : history.dropLast.getLastD "" = history.dropLast.getLast hne := by
    rw [List.getLastD_eq_getLast?, hx]
    rfl
  refine ⟨?_, ?_, ?_, ?_⟩
  · unfold backCommand
    rw [if_pos h, hx, hgd]
  · rw [hx, hgd]
  · show (if truthy d = true then
        some (d, history.dropLast.dropLast ++ [history.dropLast.getLastD ""]) else none) =
      some (d, history.dropLast)
    rw [if_pos hd, hgd, List.dropLast_append_getLast hne]
  · simp only [List.length_dropLast]
    omega

theorem C2_back_pops_two_and_reenters_witness :
    backCommand ["u1", "u2", "u3"] =
        .reenter ((["u1", "u2", "u3"] : List String).dropLast.getLastD "")
          (["u1", "u2", "u3"] : List String).dropLast.dropLast ∧
      (["u1", "u2", "u3"] : List String).dropLast.getLast? =
        some ((["u1", "u2", "u3"] : List String).dropLast.getLastD "") ∧
      enterNav (some (.obj (.cons "name" (.str "R") .nil)))
          ((["u1", "u2", "u3"] : List String).dropLast.getLastD "")
          (["u1", "u2", "u3"] : List String).dropLast.dropLast =
        some ((.obj (.cons "name" (.str "R") .nil)),
          (["u1", "u2", "u3"] : List String).dropLast) ∧
      (["u1", "u2", "u3"] : List String).dropLast.length + 1 =
        (["u1", "u2", "u3"] : List String).length :=
  C2_back_pops_two_and_reenters ["u1", "u2", "u3"]
    (.obj (.cons "name" (.str "R") .nil)) (by decide) (by decide)

/-- C3: a back command (`b` or empty input) on a history with exactly
one entry pops nothing: the outcome is a local notice carrying the
unchanged history (so its length is still 1 with the same top entry)
and the loop redisplays the same page with the current document
untouched. -/
theorem C3_back_single_history (history : List String) (n : Nat)
    (h : history.length = 1) :
    parseChoice "b" n = .back ∧ parseChoice "" n = .back ∧
      backCommand history = .notice history := by
  refine ⟨?_, ?_, ?_⟩
  · have e : pyLower (pyStrip "b") = "b" := by decide
    unfold parseChoice
    rw [e]
    rw [if_neg (by decide), if_pos rfl]
  · have e : pyLower (pyStrip "") = "" := by decide
    unfold parseChoice
    rw [e]
    rw [if_neg (by decide), if_neg (by decide)]
    rw [if_neg (by
      intro hc
      exact absurd hc.1 (by decide))]
    rw [if_pos rfl]
  · unfold backCommand
    rw [if_neg (by omega)]

theorem C3_back_single_history_witness :
    parseChoice "b" 2 = .back ∧ parseChoice "" 2 = .back ∧
      backCommand ["start.w3u"] = .notice ["start.w3u"] :=
  C3_back_single_history ["start.w3u"] 2 (by decide)

/-! ## C6: URL classifier -/

theorem isSubstr_nil_pat (t : List Char) : isSubstr [] t = true := by
  induction t with
  | nil => rfl
  | cons c r ih => simp [isSubstr]

theorem isPrefixOf_append (n h t : List Char) (hp : n.isPrefixOf h = true) :
    n.isPrefixOf (h ++ t) = true := by
  induction n generalizing h with
  | nil => cases h ++ t <;> rfl
  | cons a n' ih =>
    cases h with
    | nil => exact absurd hp (by simp [List.isPrefixOf])
    | cons b h' =>
      simp only [List.cons_append]
      simp only [List.isPrefixOf, Bool.and_eq_true, beq_iff_eq] at hp ⊢
      exact ⟨hp.1, ih h' hp.2⟩

theorem isSubstr_append (n h t : List Char) (hh : isSubstr n h = true) :
    isSubstr n (h ++ t) = true := by
  induction h with
  | nil =>
    have hn : n = [] := by
      unfold isSubstr at hh
      exact List.isEmpty_iff.mp hh
    subst hn
    simp only [List.nil_append]
    exact isSubstr_nil_pat t
  | cons c h' ih =>
    unfold isSubstr at hh
    rw [Bool.or_eq_true] at hh
    rcases hh with hp | hs
    · show isSubstr n (c :: (h' ++ t)) = true
      unfold isSubstr
      rw [Bool.or_eq_true]
      exact Or.inl (isPrefixOf_append n (c :: h') t hp)
    · show isSubstr n (c :: (h' ++ t)) = true
      unfold isSubstr
      rw [Bool.or_eq_true]
      exact Or.inr (ih hs)

theorem replaceFuel_contains (p : Char) (pat rep nraw : List Char)
    (hrep : isSubstr nraw rep = true) :
    ∀ (fuel : Nat) (l : List Char), l.length + 1 ≤ fuel →
      isSubstr (p :: pat) l = true →
      isSubstr nraw (replaceFuel p pat rep fuel l) = true := by
  intro fuel
  induction fuel with
  | zero =>
    intro l hl _
    omega
  | succ f ih =>
    intro l hl hsub
    cases l with
    | nil => exact absurd hsub (by simp [isSubstr])
    | cons c rest =>
      unfold replaceFuel
      by_cases hp : ((p :: pat).isPrefixOf (c :: rest) = true)
      · rw [if_pos hp]
        exact isSubstr_append nraw rep _ hrep
      · rw [if_neg hp]
        have hrest : isSubstr (p :: pat) rest = true := by
          unfold isSubstr at hsub
          rw [Bool.or_eq_true] at hsub
          rcases hsub with hx | hx
          · exact absurd hx hp
          · exact hx
        have hlen : rest.length + 1 ≤ f := by
          simp only [List.length_cons] at hl
          omega
        have := ih rest hlen hrest
        unfold isSubstr
        rw [Bool.or_eq_true]
        exact Or.inr this

/-- C6: the alias rewrite is idempotent — rewriting an already-rewritten
URL is a no-op because the rewritten form contains the raw-content
marker — and classification is total, every URL falling in exactly one
of the three classes of the `if`/`elif`/`else` chain; the spec's
pastebin example rewrites as claimed. -/
theorem C6_rewrite_idempotent_classification_total (u : String) :
    rewriteUrl (rewriteUrl u) = rewriteUrl u ∧
      (classifyUrl u = .subDocument ∨ classifyUrl u = .media ∨
        classifyUrl u = .webPage) ∧
      rewriteUrl "https://pastebin.com/abc123" = "https://pastebin.com/raw/abc123" := by
  refine ⟨?_, ?_, by decide⟩
  · by_cases hc : (containsSub u "pastebin.com" = true ∧ ¬ containsSub u "raw" = true)
    · have h1 : rewriteUrl u = replacePastebin u := by
        unfold rewriteUrl
        rw [if_pos hc]
      have hsub : isSubstr ('p' :: "astebin.com".data) u.data = true := hc.1
      have hraw : containsSub (replacePastebin u) "raw" = true :=
        replaceFuel_contains 'p' "astebin.com".data "pastebin.com/raw".data
          "raw".data (by decide) (u.data.length + 1) u.data (le_refl _) hsub
      have h2 : rewriteUrl (replacePastebin u) = replacePastebin u := by
        unfold rewriteUrl
        rw [if_neg (fun hcc => hcc.2 hraw)]
      rw [h1, h2]
    · have h1 : rewriteUrl u = u := by
        unfold rewriteUrl
        rw [if_neg hc]
      rw [h1, h1]
  · unfold classifyUrl
    split
    · exact Or.inl rfl
    · split
      · exact Or.inr (Or.inl rfl)
      · exact Or.inr (Or.inr rfl)

/-! ## Render correctness on well-formed documents -/

theorem wfStationArr_elim (v : JVal) (h : wfStationArr v = true) :
    ∃ sa, v = .arr sa ∧ sa.toList.all isObjVal = true := by
  cases v with
  | arr a => exact ⟨a, rfl, h⟩
  | null => simp [wfStationArr] at h
  | bool b => simp [wfStationArr] at h
  | num n => simp [wfStationArr] at h
  | str s => simp [wfStationArr] at h
  | obj o => simp [wfStationArr] at h

theorem wfEntry_elim (v : JVal) (h : wfEntry v = true) :
    ∃ o u, v = .obj o ∧ (JObj.find o "url").getD (.str "No URL") = .str u := by
  unfold wfEntry at h
  rw [Bool.and_eq_true] at h
  obtain ⟨hobj, hurl⟩ := h
  cases v
  case obj o =>
    cases hu : objGet (.obj o) "url" (.str "No URL") with
    | str u => exact ⟨o, u, rfl, hu⟩
    | null => rw [hu] at hurl; simp at hurl
    | bool b => rw [hu] at hurl; simp at hurl
    | num n => rw [hu] at hurl; simp at hurl
    | arr a => rw [hu] at hurl; simp at hurl
    | obj o2 => rw [hu] at hurl; simp at hurl
  all_goals simp [isObjVal] at hobj

theorem wfStationArrR_elim (v : JVal) (h : wfStationArrR v = true) :
    ∃ sa, v = .arr sa ∧ sa.toList.all wfEntry = true := by
  cases v with
  | arr a => exact ⟨a, rfl, h⟩
  | null => simp [wfStationArrR] at h
  | bool b => simp [wfStationArrR] at h
  | num n => simp [wfStationArrR] at h
  | str s => simp [wfStationArrR] at h
  | obj o => simp [wfStationArrR] at h

theorem renderStationsOf_wf (parent : JVal) (l : List JVal)
    (h : l.all wfEntry = true) :
    renderStationsOf parent l = .ok (l.map (fun s => (s, some parent))) := by
  induction l with
  | nil => rfl
  | cons st rest ih =>
    rw [List.all_cons, Bool.and_eq_true] at h
    obtain ⟨hst, hrest⟩ := h
    obtain ⟨o, u, rfl, hu⟩ := wfEntry_elim _ hst
    simp only [renderStationsOf, pyGet, hu, formatUrlVal]
    rw [ih hrest]
    rfl

theorem renderFlatStations_wf (l : List JVal) (h : l.all wfEntry = true) :
    renderFlatStations l = .ok (l.map (fun s => (s, none))) := by
  induction l with
  | nil => rfl
  | cons st rest ih =>
    rw [List.all_cons, Bool.and_eq_true] at h
    obtain ⟨hst, hrest⟩ := h
    obtain ⟨o, u, rfl, hu⟩ := wfEntry_elim _ hst
    simp only [renderFlatStations, pyGet, hu, formatUrlVal]
    rw [ih hrest]
    rfl

theorem renderNestedOf_wf (parent : JVal) (l : List JVal)
    (h : l.all wfNestedGroupR = true) :
    renderNestedOf parent l = .ok (l.flatMap (specNestedBlock parent)) := by
  induction l with
  | nil => rfl
  | cons ng rest ih =>
    rw [List.all_cons, Bool.and_eq_true] at h
    obtain ⟨hng, hrest⟩ := h
    unfold wfNestedGroupR at hng
    rw [Bool.and_eq_true] at hng
    obtain ⟨hent, hsts⟩ := hng
    obtain ⟨o, u, rfl, hu⟩ := wfEntry_elim _ hent
    obtain ⟨sa, hsv, hsa⟩ := wfStationArrR_elim _ hsts
    have hsv' : (JObj.find o "stations").getD (.arr .nil) = .arr sa := hsv
    simp only [renderNestedOf, pyGet, hu, formatUrlVal, hsv', pyIter,
      renderStationsOf_wf (JVal.obj o) sa.toList hsa, ih hrest]
    rw [List.flatMap_cons]
    unfold specNestedBlock
    rw [show objGet (.obj o) "stations" (.arr .nil) = JVal.arr sa from hsv]
    rfl

theorem wfGroupR_elim (g : JVal) (h : wfGroupR g = true) :
    ∃ o, g = .obj o ∧
      (∃ u, (JObj.find o "url").getD (.str "No URL") = .str u) ∧
      (∃ sa, (JObj.find o "stations").getD (.arr .nil) = .arr sa ∧
        sa.toList.all wfEntry = true) ∧
      (∃ ga, (JObj.find o "groups").getD (.arr .nil) = .arr ga ∧
        ga.toList.all wfNestedGroupR = true) := by
  unfold wfGroupR at h
  rw [Bool.and_eq_true, Bool.and_eq_true] at h
  obtain ⟨⟨hent, hsts⟩, hgs⟩ := h
  obtain ⟨o, u, rfl, hu⟩ := wfEntry_elim _ hent
  refine ⟨o, rfl, ⟨u, hu⟩, ?_, ?_⟩
  · obtain ⟨sa, hsv, hsa⟩ := wfStationArrR_elim _ hsts
    exact ⟨sa, hsv, hsa⟩
  · cases hgv : objGet (.obj o) "groups" (.arr .nil) with
    | arr ga =>
      rw [hgv] at hgs
      exact ⟨ga, hgv, hgs⟩
    | null => rw [hgv] at hgs; simp at hgs
    | bool b => rw [hgv] at hgs; simp at hgs
    | num n => rw [hgv] at hgs; simp at hgs
    | str s => rw [hgv] at hgs; simp at hgs
    | obj o2 => rw [hgv] at hgs; simp at hgs

theorem renderGroups_wf (l : List JVal) (h : l.all wfGroupR = true) :
    renderGroups l = .ok (l.flatMap specGroupBlock) := by
  induction l with
  | nil => rfl
  | cons g rest ih =>
    rw [List.all_cons, Bool.and_eq_true] at h
    obtain ⟨hg, hrest⟩ := h
    obtain ⟨o, rfl, ⟨u, hu⟩, ⟨sa, hsv, hsa⟩, ⟨ga, hgv, hga⟩⟩ := wfGroupR_elim _ hg
    simp only [renderGroups, pyGet, hu, formatUrlVal, hsv, hgv, pyIter,
      renderStationsOf_wf (JVal.obj o) sa.toList hsa,
      renderNestedOf_wf (JVal.obj o) ga.toList hga, ih hrest]
    rw [List.flatMap_cons]
    unfold specGroupBlock
    rw [show objGet (.obj o) "stations" (.arr .nil) = JVal.arr sa from hsv]
    rw [show objGet (.obj o) "groups" (.arr .nil) = JVal.arr ga from hgv]
    rfl

theorem wfDoc_elim (v : JVal) (h : wfDoc v = true) :
    ∃ o, v = .obj o ∧
      (∃ ga, (JObj.find o "groups").getD (.arr .nil) = .arr ga ∧
        ga.toList.all wfGroup = true) ∧
      (∃ sa, (JObj.find o "stations").getD (.arr .nil) = .arr sa ∧
        sa.toList.all isObjVal = true) := by
  unfold wfDoc at h
  rw [Bool.and_eq_true, Bool.and_eq_true] at h
  obtain ⟨⟨hobj, hgs⟩, hsts⟩ := h
  cases v
  case obj o =>
    refine ⟨o, rfl, ?_, ?_⟩
    · cases hgv : objGet (.obj o) "groups" (.arr .nil) with
      | arr ga =>
        rw [hgv] at hgs
        exact ⟨ga, hgv, hgs⟩
      | null => rw [hgv] at hgs; simp at hgs
      | bool b => rw [hgv] at hgs; simp at hgs
      | num n => rw [hgv] at hgs; simp at hgs
      | str s => rw [hgv] at hgs; simp at hgs
      | obj o2 => rw [hgv] at hgs; simp at hgs
    · obtain ⟨sa, hsv, hsa⟩ := wfStationArr_elim _ hsts
      exact ⟨sa, hsv, hsa⟩
  all_goals simp [isObjVal] at hobj

theorem wfDocR_elim (v : JVal) (h : wfDocR v = true) :
    ∃ o, v = .obj o ∧
      (∃ ga, (JObj.find o "groups").getD (.arr .nil) = .arr ga ∧
        ga.toList.all wfGroupR = true) ∧
      (∃ sa, (JObj.find o "stations").getD (.arr .nil) = .arr sa ∧
        sa.toList.all wfEntry = true) := by
  unfold wfDocR at h
  rw [Bool.and_eq_true, Bool.and_eq_true] at h
  obtain ⟨⟨hobj, hgs⟩, hsts⟩ := h
  cases v
  case obj o =>
    refine ⟨o, rfl, ?_, ?_⟩
    · cases hgv : objGet (.obj o) "groups" (.arr .nil) with
      | arr ga =>
        rw [hgv] at hgs
        exact ⟨ga, hgv, hgs⟩
      | null => rw [hgv] at hgs; simp at hgs
      | bool b => rw [hgv] at hgs; simp at hgs
      | num n => rw [hgv] at hgs; simp at hgs
      | str s => rw [hgv] at hgs; simp at hgs
      | obj o2 => rw [hgv] at hgs; simp at hgs
    · obtain ⟨sa, hsv, hsa⟩ := wfStationArrR_elim _ hsts
      exact ⟨sa, hsv, hsa⟩
  all_goals simp [isObjVal] at hobj

/-- On a document of the data-model shape (url members included) the
render raises no exception and produces exactly the option list
described by the specification. -/
theorem renderOptions_wf (v : JVal) (h : wfDocR v = true) :
    renderOptions v = .ok (specFlatten v) := by
  obtain ⟨o, rfl, ⟨ga, hgv, hga⟩, ⟨sa, hsv, hsa⟩⟩ := wfDocR_elim _ h
  simp only [renderOptions, pyGet, specFlatten, objGet, hgv, hsv]
  by_cases ht : truthy (.arr ga) = true
  · rw [if_pos ht, if_pos ht]
    simp only [pyIter, renderGroups_wf ga.toList hga]
    rfl
  · rw [if_neg ht, if_neg ht]
    by_cases hts : truthy (.arr sa) = true
    · rw [if_pos hts, if_pos hts]
      simp only [pyIter, renderFlatStations_wf sa.toList hsa]
      rfl
    · rw [if_neg hts, if_neg hts]

/-- With a truthy `groups` member the render of a structurally
well-formed document is the render of its groups value alone: the
top-level stations member is never read on that path. -/
theorem renderOptions_groups_only (v : JVal) (h : wfDoc v = true)
    (ht : truthy (objGet v "groups" (.arr .nil)) = true) :
    renderOptions v = renderGroups (asList (objGet v "groups" (.arr .nil))) := by
  obtain ⟨o, rfl, ⟨ga, hgv, hga⟩, ⟨sa, hsv, hsa⟩⟩ := wfDoc_elim _ h
  have hgv' : objGet (.obj o) "groups" (.arr .nil) = JVal.arr ga := hgv
  rw [hgv']
  rw [hgv'] at ht
  simp only [renderOptions, pyGet, hgv]
  rw [if_pos ht]
  simp only [pyIter, asList]

theorem specFlatten_length (v : JVal) :
    (specFlatten v).length = countEntries v := by
  unfold specFlatten countEntries
  by_cases ht : truthy (objGet v "groups" (.arr .nil)) = true
  · rw [if_pos ht, if_pos ht, List.length_flatMap]
    congr 1
    apply List.map_congr_left
    intro g _
    simp only [Function.comp_apply, specGroupBlock, List.length_cons, List.length_append,
      List.length_map, List.length_flatMap]
    rw [show (List.map (List.length ∘ specNestedBlock g)
          (asList (objGet g "groups" (.arr .nil)))) =
        (List.map (fun ng => 1 + (asList (objGet ng "stations" (.arr .nil))).length)
          (asList (objGet g "groups" (.arr .nil)))) from
      List.map_congr_left (fun ng _ => by
        simp only [Function.comp_apply, specNestedBlock, List.length_cons, List.length_map]
        omega)]
    omega
  · rw [if_neg ht, if_neg ht]
    by_cases hts : truthy (objGet v "stations" (.arr .nil)) = true
    · rw [if_pos hts, if_pos hts, List.length_map]
    · rw [if_neg hts, if_neg hts]
      rfl

/-! ## C4, C9 and C10: render and navigator safety -/

/-- C4: one render of a document of the data-model shape (a tree of
group and station objects whose `url` members, when present, are
strings) produces exactly one option per entry visited under the
bounded two-level nesting rule, in the order of the
specification-side flattening (each top-level group, its direct
stations, then each directly nested group immediately followed by that
nested group's direct stations; flat top-level stations when there are
no groups); the flat 0-based contiguous indices are the positions of
the options list.  The spec's example document yields exactly two
options, the group then its station. -/
theorem C4_render_flat_options (v : JVal) (h : wfDocR v = true) :
    renderOptions v = .ok (specFlatten v) ∧
      (specFlatten v).length = countEntries v ∧
      renderOptions exampleDoc = .ok [(newsGroup, none), (cnnStation, some newsGroup)] :=
  ⟨renderOptions_wf v h, specFlatten_length v, rfl⟩

theorem C4_render_flat_options_witness :
    renderOptions exampleDoc = .ok (specFlatten exampleDoc) ∧
      (specFlatten exampleDoc).length = countEntries exampleDoc ∧
      renderOptions exampleDoc = .ok [(newsGroup, none), (cnnStation, some newsGroup)] :=
  C4_render_flat_options exampleDoc (by decide)

def arr123 : JVal := .arr (.cons (.num 1) (.cons (.num 2) (.cons (.num 3) .nil)))

/-- C9 fails as stated: the text `[1,2,3]` sanitizes to itself and
validates as JSON, the Loader returns it as a successful truthy load,
and the render then raises an uncaught `AttributeError` (`.get` on a
list), crashing the session rather than reaching a rendered page or the
prior page. -/
theorem C9_counterexample :
    validate_json "[1,2,3]" = true ∧
      clean_json "[1,2,3]" = "[1,2,3]" ∧
      (fetch_w3u "http://h/x.w3u" emptyCache (.response 200 "[1,2,3]") false).doc =
        some arr123 ∧
      truthy arr123 = true ∧
      renderOptions arr123 = .error "AttributeError" :=
  ⟨rfl, rfl, rfl, rfl, rfl⟩

/-- C9 (amended): the navigator reaches a rendered page for every load
whose text parses to a document of the data-model shape (a top-level
object whose groups and stations members are arrays of objects, to the
modelled two-level depth, with every `url` member that is present
holding a string), and returns to the prior page on every failed load;
a load that succeeds with JSON of any other shape can crash the render
with an uncaught exception — a bare array at the top level (the
counterexample) or a non-string `url` member inside an entry
(`format_url` raises at `url.startswith`). -/
theorem C9_amended_no_crash_on_wf (v : JVal) (url : String) (hist : List String)
    (h : wfDocR v = true) :
    renderOptions v = .ok (specFlatten v) ∧ enterNav none url hist = none :=
  ⟨renderOptions_wf v h, rfl⟩

theorem C9_amended_no_crash_on_wf_witness :
    renderOptions exampleDoc = .ok (specFlatten exampleDoc) ∧
      enterNav none "http://h/x.w3u" ["r.w3u"] = none :=
  C9_amended_no_crash_on_wf exampleDoc "http://h/x.w3u" ["r.w3u"] (by decide)

/-- C10: when the groups sequence is non-empty (truthy), the render is
a function of the groups value alone — two well-formed documents with
the same `groups` member render identically, so the document's own
top-level stations contribute no option and are not selectable, no
matter how many stations there are. -/
theorem C10_top_stations_ignored (v1 v2 : JVal) (h1 : wfDoc v1 = true)
    (h2 : wfDoc v2 = true)
    (hg : objGet v1 "groups" (.arr .nil) = objGet v2 "groups" (.arr .nil))
    (ht : truthy (objGet v1 "groups" (.arr .nil)) = true) :
    renderOptions v1 = renderOptions v2 := by
  rw [renderOptions_groups_only v1 h1 ht,
    renderOptions_groups_only v2 h2 (by rw [← hg]; exact ht), hg]

/-- The example document with one top-level station added. -/
def exampleDocPlus : JVal :=
  .obj (.cons "name" (.str "Root")
    (.cons "groups" (.arr (.cons newsGroup .nil))
      (.cons "stations" (.arr (.cons cnnStation .nil)) .nil)))

theorem C10_top_stations_ignored_witness :
    renderOptions exampleDoc = renderOptions exampleDocPlus :=
  C10_top_stations_ignored exampleDoc exampleDocPlus (by decide) (by decide)
    (by decide) (by decide)

/-! ## C7 and C8: loader outcomes -/

theorem isPrefixOf_exists (n l : List Char) (h : n.isPrefixOf l = true) :
    ∃ r, l = n ++ r := by
  induction n generalizing l with
  | nil => exact ⟨l, rfl⟩
  | cons a n' ih =>
    cases l with
    | nil => exact absurd h (by simp [List.isPrefixOf])
    | cons b l' =>
      simp only [List.isPrefixOf, Bool.and_eq_true, beq_iff_eq] at h
      obtain ⟨heq, h2⟩ := h
      subst heq
      obtain ⟨r, hr⟩ := ih l' h2
      exact ⟨r, by rw [hr]; rfl⟩

/-- Stripping whitespace from a text that begins with the `#EXTM3U`
marker leaves a text that still begins with the marker. -/
theorem pyStrip_preserves_m3u (l : List Char)
    (hp : "#EXTM3U".data.isPrefixOf l = true) :
    "#EXTM3U".data.isPrefixOf (pyStripChars l) = true := by
  obtain ⟨r, rfl⟩ := isPrefixOf_exists _ _ hp
  unfold pyStripChars
  have h1 : ("#EXTM3U".data ++ r).dropWhile isPyWs = "#EXTM3U".data ++ r := by
    rw [show ("#EXTM3U".data ++ r) = '#' :: ("EXTM3U".data ++ r) from rfl]
    rw [List.dropWhile_cons, if_neg (by decide)]
  rw [h1, List.reverse_append, List.dropWhile_append]
  by_cases he : (r.reverse.dropWhile isPyWs).isEmpty = true
  · rw [if_pos he]
    have h2 : ("#EXTM3U".data.reverse).dropWhile isPyWs = "#EXTM3U".data.reverse := by
      decide
    rw [h2, List.reverse_reverse]
    decide
  · rw [if_neg he, List.reverse_append, List.reverse_reverse]
    exact isPrefixOf_append _ _ _ (by decide)

/-- C7: when the fetched text begins with the media-playlist marker
`#EXTM3U`, the loader returns no document, writes nothing to the cache
slot (the cache is exactly as before), never reaches the parse, and its
only events are the prompt offering to dispatch the URL to the media
launcher, followed by the launch when the user confirms. -/
theorem C7_m3u_detected (url text : String) (cache : Cache) (status : Nat)
    (confirm : Bool)
    (hmiss : cacheLookup (get_filename_from_url url) cache = none)
    (hm3u : startsWithStr text "#EXTM3U" = true) :
    fetch_w3u url cache (.response status text) confirm =
      ⟨none, cache, .m3uPromptShown url :: if confirm then [.vlcLaunched url] else []⟩ := by
  have hstrip : startsWithStr (pyStrip text) "#EXTM3U" = true :=
    pyStrip_preserves_m3u text.data hm3u
  simp only [fetch_w3u]
  rw [hmiss]
  simp only [fetchNet]
  rw [if_pos hstrip]

theorem C7_m3u_detected_witness :
    fetch_w3u "http://h/x.w3u" emptyCache (.response 404 "#EXTM3U\nlist") true =
      ⟨none, emptyCache,
        .m3uPromptShown "http://h/x.w3u" ::
          if true then [.vlcLaunched "http://h/x.w3u"] else []⟩ :=
  C7_m3u_detected "http://h/x.w3u" "#EXTM3U\nlist" emptyCache 404 true rfl (by decide)

/-- The document loaded from the remote text `{"a":",,]"}`. -/
def trickyDoc : JVal := .obj (.cons "a" (.str ",]") .nil)

/-- What the same URL returns on the next, cache-only load. -/
def mangledDoc : JVal := .obj (.cons "a" (.str "]") .nil)

/-- C5 fails as stated: the remote text `{"a":",,]"}` loads successfully
as the document `{"a": ",]"}` and commits its serialization to the
cache, but the next load of the same URL, answered from the cache alone
with the network revoked, re-sanitizes the cached text — deleting the
comma of the string value `",]"` — and returns the structurally
different document `{"a": "]"}`. -/
theorem C5_counterexample :
    (fetch_w3u "http://h/x.w3u" emptyCache (.response 200 "\x7b\"a\":\",,]\"\x7d") false).doc =
        some trickyDoc ∧
      (fetch_w3u "http://h/x.w3u"
          (fetch_w3u "http://h/x.w3u" emptyCache
            (.response 200 "\x7b\"a\":\",,]\"\x7d") false).cache
          .transportFail false).doc = some mangledDoc ∧
      trickyDoc ≠ mangledDoc ∧
      tameVal trickyDoc = true ∧
      removeTrailingCommas (json_dump trickyDoc) ≠ json_dump trickyDoc := by decide

/-! ### Round-trip of the serializer through the sanitizer and parser -/

theorem char_ne_of_toNat_ne (c d : Char) (h : c.toNat ≠ d.toNat) : c ≠ d :=
  fun he => h (congrArg Char.toNat he)

theorem digit_char_spec (m : Nat) (h : m < 10) :
    (Char.ofNat (48 + m)).toNat = 48 + m ∧ isDigitChar (Char.ofNat (48 + m)) = true := by
  interval_cases m <;> exact ⟨by decide, by decide⟩

theorem digitsVal_append_one (l : List Char) (c : Char) :
    digitsVal (l ++ [c]) = digitsVal l * 10 + (c.toNat - 48) := by
  unfold digitsVal
  rw [List.foldl_append]
  rfl

theorem natCharsFuel_spec : ∀ (fuel n : Nat), n < fuel →
    natCharsFuel fuel n ≠ [] ∧
      (∀ c ∈ natCharsFuel fuel n, isDigitChar c = true) ∧
      digitsVal (natCharsFuel fuel n) = n := by
  intro fuel
  induction fuel with
  | zero =>
    intro n h
    omega
  | succ f ih =>
    intro n h
    by_cases h10 : n < 10
    · obtain ⟨ht, hd⟩ := digit_char_spec n h10
      unfold natCharsFuel
      rw [if_pos h10]
      refine ⟨by simp, ?_, ?_⟩
      · intro c hc
        rw [List.mem_singleton] at hc
        subst hc
        exact hd
      · show 0 * 10 + ((Char.ofNat (48 + n)).toNat - 48) = n
        rw [ht]
        omega
    · have hdiv : n / 10 < f := by
        have := Nat.div_lt_self (by omega : 0 < n) (by omega : 1 < 10)
        omega
      obtain ⟨hne, hdig, hval⟩ := ih (n / 10) hdiv
      obtain ⟨htm, hdm⟩ := digit_char_spec (n % 10) (Nat.mod_lt n (by omega))
      unfold natCharsFuel
      rw [if_neg h10]
      refine ⟨by simp, ?_, ?_⟩
      · intro c hc
        rw [List.mem_append] at hc
        rcases hc with hc | hc
        · exact hdig c hc
        · rw [List.mem_singleton] at hc
          subst hc
          exact hdm
      · rw [digitsVal_append_one, hval, htm]
        omega

theorem natChars_spec (n : Nat) :
    natChars n ≠ [] ∧ (∀ c ∈ natChars n, isDigitChar c = true) ∧
      digitsVal (natChars n) = n :=
  natCharsFuel_spec (n + 1) n (by omega)

theorem takeWhile_all_append (p : Char → Bool) (l r : List Char)
    (hl : ∀ c ∈ l, p c = true)
    (hr : ∀ c, r.head? = some c → p c = false) :
    (l ++ r).takeWhile p = l ∧ (l ++ r).dropWhile p = r := by
  induction l with
  | nil =>
    simp only [List.nil_append]
    cases r with
    | nil => exact ⟨rfl, rfl⟩
    | cons c t =>
      have hc := hr c rfl
      rw [List.takeWhile_cons, List.dropWhile_cons, hc]
      exact ⟨rfl, rfl⟩
  | cons a l' ih =>
    have ha := hl a (List.mem_cons_self a l')
    obtain ⟨h1, h2⟩ := ih (fun c hc => hl c (List.mem_cons_of_mem a hc))
    rw [List.cons_append, List.takeWhile_cons, List.dropWhile_cons, ha]
    exact ⟨by rw [if_pos rfl, h1], by rw [if_pos rfl, h2]⟩

theorem parseDigitRun_natChars (n : Nat) (rest : List Char)
    (hnd : headNotDigit rest = true) (hne : headIsNumExt rest = false) :
    parseDigitRun (natChars n ++ rest) = some (n, rest) := by
  obtain ⟨h0, hdig, hval⟩ := natChars_spec n
  have hr : ∀ c, rest.head? = some c → isDigitChar c = false := by
    intro c hc
    unfold headNotDigit at hnd
    rw [hc] at hnd
    simp at hnd
    exact hnd
  obtain ⟨htw, hdw⟩ := takeWhile_all_append isDigitChar (natChars n) rest hdig hr
  unfold parseDigitRun
  rw [htw, hdw]
  rw [if_neg (by
    intro hc
    exact h0 (List.isEmpty_iff.mp hc))]
  rw [if_neg (by
    intro hc
    rw [hne] at hc
    cases hc)]
  rw [hval]

theorem parseNumAt_intChars (i : Int) (rest : List Char)
    (hnd : headNotDigit rest = true) (hne : headIsNumExt rest = false) :
    parseNumAt (intChars i ++ rest) = some (i, rest) := by
  by_cases hi : i < 0
  · have : intChars i = '-' :: natChars i.natAbs := by
      unfold intChars
      rw [if_pos hi]
    rw [this]
    show parseNumAt ('-' :: (natChars i.natAbs ++ rest)) = some (i, rest)
    show (match parseDigitRun (natChars i.natAbs ++ rest) with
      | none => none
      | some (n, r) => some (-(n : Int), r)) = some (i, rest)
    rw [parseDigitRun_natChars i.natAbs rest hnd hne]
    have h2 : -((i.natAbs : Nat) : Int) = i := by omega
    show some (-((i.natAbs : Nat) : Int), rest) = some (i, rest)
    rw [h2]
  · have hich : intChars i = natChars i.toNat := by
      unfold intChars
      rw [if_neg hi]
    obtain ⟨h0, hdig, _⟩ := natChars_spec i.toNat
    cases hnc : natChars i.toNat with
    | nil => exact absurd hnc h0
    | cons c cs =>
      have hc : isDigitChar c = true := hdig c (by rw [hnc]; exact List.mem_cons_self c cs)
      have hc45 : c ≠ '-' := by
        apply char_ne_of_toNat_ne
        show c.toNat ≠ 45
        unfold isDigitChar at hc
        rw [decide_eq_true_eq] at hc
        omega
      rw [hich, hnc]
      show parseNumAt (c :: (cs ++ rest)) = some (i, rest)
      unfold parseNumAt
      split
      · rename_i l1 heq
        rw [List.cons.injEq] at heq
        exact absurd heq.1 hc45
      · have hrun : parseDigitRun (c :: (cs ++ rest)) = some (i.toNat, rest) := by
          have := parseDigitRun_natChars i.toNat rest hnd hne
          rw [hnc] at this
          exact this
        rw [hrun]
        have h3 : ((i.toNat : Nat) : Int) = i := by omega
        show some (((i.toNat : Nat) : Int), rest) = some (i, rest)
        rw [h3]

theorem tameChar_props (c : Char) (h : tameChar c = true) :
    c.toNat ≠ 34 ∧ c.toNat ≠ 92 ∧ 0x20 ≤ c.toNat ∧ c.toNat ≠ 0x7F := by
  unfold tameChar at h
  rw [decide_eq_true_eq] at h
  exact h

theorem escEncode_tame (c : Char) (h : tameChar c = true) : escEncode c = [c] := by
  obtain ⟨h34, h92, h32, h7f⟩ := tameChar_props c h
  unfold escEncode
  rw [if_neg (char_ne_of_toNat_ne c '"' h34)]
  rw [if_neg (char_ne_of_toNat_ne c '\\' h92)]
  rw [if_neg (char_ne_of_toNat_ne c '\n' (by show c.toNat ≠ 10; omega))]
  rw [if_neg (char_ne_of_toNat_ne c '\t' (by show c.toNat ≠ 9; omega))]
  rw [if_neg (char_ne_of_toNat_ne c '\r' (by show c.toNat ≠ 13; omega))]
  rw [if_neg (by omega : ¬ c.toNat = 8)]
  rw [if_neg (by omega : ¬ c.toNat = 12)]
  rw [if_neg (by omega : ¬ c.toNat < 0x20)]

theorem escapeChars_tame (l : List Char) (h : l.all tameChar = true) :
    escapeChars l = l := by
  induction l with
  | nil => rfl
  | cons c t ih =>
    rw [List.all_cons, Bool.and_eq_true] at h
    show escEncode c ++ escapeChars t = c :: t
    rw [escEncode_tame c h.1, ih h.2]
    rfl

theorem parseStrBody_tame : ∀ (s rest : List Char) (fuel : Nat),
    s.all tameChar = true → s.length + 1 ≤ fuel →
    parseStrBody fuel (s ++ '"' :: rest) = some (s, rest) := by
  intro s
  induction s with
  | nil =>
    intro rest fuel _ hf
    cases fuel with
    | zero => omega
    | succ f => rfl
  | cons c cs ih =>
    intro rest fuel h hf
    cases fuel with
    | zero => omega
    | succ f =>
      rw [List.all_cons, Bool.and_eq_true] at h
      obtain ⟨hc, hcs⟩ := h
      obtain ⟨h34, h92, _, _⟩ := tameChar_props c hc
      show parseStrBody (f + 1) (c :: (cs ++ '"' :: rest)) = some (c :: cs, rest)
      unfold parseStrBody
      rw [if_neg (char_ne_of_toNat_ne c '"' h34)]
      rw [if_neg (char_ne_of_toNat_ne c '\\' h92)]
      rw [ih rest f hcs (by simp only [List.length_cons] at hf; omega)]
      rfl

theorem tame_not_ctrl (c : Char) (h : tameChar c = true) : isCtrlChar c = false := by
  obtain ⟨_, _, h32, h7f⟩ := tameChar_props c h
  unfold isCtrlChar
  rw [decide_eq_false_iff_not]
  rintro (hh | hh) <;> omega

theorem digit_not_ctrl (c : Char) (h : isDigitChar c = true) : isCtrlChar c = false := by
  unfold isDigitChar at h
  rw [decide_eq_true_eq] at h
  unfold isCtrlChar
  rw [decide_eq_false_iff_not]
  rintro (hh | hh) <;> omega

theorem fNC_cons_keep (c : Char) (l : List Char) (h : isCtrlChar c = false) :
    fNC (c :: l) = c :: fNC l := by
  unfold fNC
  rw [List.filter_cons]
  simp [h]

theorem fNC_cons_drop (c : Char) (l : List Char) (h : isCtrlChar c = true) :
    fNC (c :: l) = fNC l := by
  unfold fNC
  rw [List.filter_cons]
  simp [h]

theorem fNC_append (a b : List Char) : fNC (a ++ b) = fNC a ++ fNC b :=
  List.filter_append ..

theorem fNC_of_all_not_ctrl (l : List Char) (h : ∀ c ∈ l, isCtrlChar c = false) :
    fNC l = l := by
  unfold fNC
  rw [List.filter_eq_self]
  intro a ha
  simp [h a ha]

theorem fNC_spaces (n : Nat) : fNC (spacesChars n) = spacesChars n := by
  apply fNC_of_all_not_ctrl
  intro c hc
  unfold spacesChars at hc
  rw [List.eq_of_mem_replicate hc]
  decide

theorem fNC_tame (l : List Char) (h : l.all tameChar = true) : fNC l = l := by
  apply fNC_of_all_not_ctrl
  intro c hc
  rw [List.all_eq_true] at h
  exact tame_not_ctrl c (h c hc)

theorem fNC_natChars (n : Nat) : fNC (natChars n) = natChars n := by
  apply fNC_of_all_not_ctrl
  intro c hc
  exact digit_not_ctrl c ((natChars_spec n).2.1 c hc)

theorem fNC_intChars (i : Int) : fNC (intChars i) = intChars i := by
  by_cases hi : i < 0
  · rw [show intChars i = '-' :: natChars i.natAbs by unfold intChars; rw [if_pos hi]]
    rw [fNC_cons_keep _ _ (by decide), fNC_natChars]
  · rw [show intChars i = natChars i.toNat by unfold intChars; rw [if_neg hi]]
    exact fNC_natChars _

theorem fNC_dumpStr_tame (s : String) (h : s.data.all tameChar = true) :
    fNC (dumpStrChars s) = '"' :: s.data ++ ['"'] := by
  unfold dumpStrChars
  rw [escapeChars_tame s.data h, List.cons_append]
  rw [fNC_cons_keep '"' (s.data ++ ['"']) (by decide), fNC_append, fNC_tame s.data h]
  rfl

theorem skipWs_cons_not (c : Char) (l : List Char) (h : isJsonWs c = false) :
    skipWs (c :: l) = c :: l := by
  unfold skipWs
  rw [List.dropWhile_cons]
  simp [h]

theorem skipWs_spaces (n : Nat) (l : List Char) :
    skipWs (spacesChars n ++ l) = skipWs l := by
  induction n with
  | zero => rfl
  | succ m ih =>
    show skipWs ((' ' :: spacesChars m) ++ l) = skipWs l
    rw [List.cons_append]
    unfold skipWs
    rw [List.dropWhile_cons]
    simp only [show isJsonWs ' ' = true from rfl, if_pos]
    exact ih

theorem parseVal_spaces (fuel n : Nat) (l : List Char) :
    parseVal fuel (spacesChars n ++ l) = parseVal fuel l := by
  cases fuel with
  | zero => rfl
  | succ f =>
    unfold parseVal
    rw [skipWs_spaces]

theorem intChars_head (i : Int) :
    ∃ c cs, intChars i = c :: cs ∧ (c = '-' ∨ isDigitChar c = true) := by
  by_cases hi : i < 0
  · exact ⟨'-', natChars i.natAbs, by unfold intChars; rw [if_pos hi], Or.inl rfl⟩
  · obtain ⟨h0, hdig, _⟩ := natChars_spec i.toNat
    cases hnc : natChars i.toNat with
    | nil => exact absurd hnc h0
    | cons c cs =>
      refine ⟨c, cs, ?_, Or.inr (hdig c (by rw [hnc]; exact List.mem_cons_self c cs))⟩
      unfold intChars
      rw [if_neg hi, hnc]

/-! ### Shape of the sanitized serialization -/

theorem fNC_dumpAt_arr_cons (k : Nat) (x : JVal) (t : JArr) :
    fNC (dumpAt k (.arr (.cons x t))) =
      '[' :: (fNC (dumpArrItems (k + 4) (.cons x t)) ++ (spacesChars k ++ [']'])) := by
  rw [show dumpAt k (.arr (.cons x t)) =
      '[' :: '\n' :: (dumpArrItems (k + 4) (.cons x t) ++
        ('\n' :: (spacesChars k ++ [']']))) from by
    simp [dumpAt, List.cons_append, List.append_assoc]]
  rw [fNC_cons_keep '[' _ (by decide), fNC_cons_drop '\n' _ (by decide), fNC_append]
  rw [fNC_cons_drop '\n' _ (by decide), fNC_append, fNC_spaces]
  rw [show fNC [']'] = [']'] from by decide]

theorem fNC_dumpAt_obj_cons (k : Nat) (key : String) (v : JVal) (t : JObj) :
    fNC (dumpAt k (.obj (.cons key v t))) =
      '{' :: (fNC (dumpObjItems (k + 4) (.cons key v t)) ++ (spacesChars k ++ ['}'])) := by
  rw [show dumpAt k (.obj (.cons key v t)) =
      '{' :: '\n' :: (dumpObjItems (k + 4) (.cons key v t) ++
        ('\n' :: (spacesChars k ++ ['}']))) from by
    simp [dumpAt, List.cons_append, List.append_assoc]]
  rw [fNC_cons_keep '{' _ (by decide), fNC_cons_drop '\n' _ (by decide), fNC_append]
  rw [fNC_cons_drop '\n' _ (by decide), fNC_append, fNC_spaces]
  rw [show fNC ['}'] = ['}'] from by decide]

theorem fNC_dumpArrItems_single (k : Nat) (x : JVal) :
    fNC (dumpArrItems k (.cons x .nil)) = spacesChars k ++ fNC (dumpAt k x) := by
  rw [show dumpArrItems k (.cons x .nil) = spacesChars k ++ dumpAt k x from by
    simp [dumpArrItems]]
  rw [fNC_append, fNC_spaces]

theorem fNC_dumpArrItems_cons (k : Nat) (x y : JVal) (ys : JArr) :
    fNC (dumpArrItems k (.cons x (.cons y ys))) =
      spacesChars k ++ (fNC (dumpAt k x) ++ ',' :: fNC (dumpArrItems k (.cons y ys))) := by
  rw [show dumpArrItems k (.cons x (.cons y ys)) =
      spacesChars k ++ (dumpAt k x ++ (',' :: '\n' :: dumpArrItems k (.cons y ys))) from by
    simp [dumpArrItems, List.cons_append, List.append_assoc]]
  rw [fNC_append, fNC_spaces, fNC_append]
  rw [fNC_cons_keep ',' _ (by decide), fNC_cons_drop '\n' _ (by decide)]

theorem fNC_dumpObjItems_single (k : Nat) (key : String) (v : JVal)
    (hk : key.data.all tameChar = true) :
    fNC (dumpObjItems k (.cons key v .nil)) =
      spacesChars k ++ (('"' :: key.data ++ ['"']) ++ ':' :: ' ' :: fNC (dumpAt k v)) := by
  rw [show dumpObjItems k (.cons key v .nil) =
      spacesChars k ++ (dumpStrChars key ++ (':' :: ' ' :: dumpAt k v)) from by
    simp [dumpObjItems, List.cons_append, List.append_assoc]]
  rw [fNC_append, fNC_spaces, fNC_append, fNC_dumpStr_tame key hk]
  rw [fNC_cons_keep ':' _ (by decide), fNC_cons_keep ' ' _ (by decide)]

theorem fNC_dumpObjItems_cons (k : Nat) (key : String) (v : JVal)
    (k2 : String) (v2 : JVal) (t : JObj)
    (hk : key.data.all tameChar = true) :
    fNC (dumpObjItems k (.cons key v (.cons k2 v2 t))) =
      spacesChars k ++ (('"' :: key.data ++ ['"']) ++ ':' :: ' ' ::
        (fNC (dumpAt k v) ++ ',' :: fNC (dumpObjItems k (.cons k2 v2 t)))) := by
  rw [show dumpObjItems k (.cons key v (.cons k2 v2 t)) =
      spacesChars k ++ (dumpStrChars key ++ (':' :: ' ' ::
        (dumpAt k v ++ (',' :: '\n' :: dumpObjItems k (.cons k2 v2 t))))) from by
    simp [dumpObjItems, List.cons_append, List.append_assoc]]
  rw [fNC_append, fNC_spaces, fNC_append, fNC_dumpStr_tame key hk]
  rw [fNC_cons_keep ':' _ (by decide), fNC_cons_keep ' ' _ (by decide), fNC_append]
  rw [fNC_cons_keep ',' _ (by decide), fNC_cons_drop '\n' _ (by decide)]

/-! ### Head-specialized unfoldings of the parser -/

theorem parseVal_succ_null (f : Nat) (l : List Char) :
    parseVal (f + 1) ('n' :: l) =
      (if "ull".data.isPrefixOf l then some (.null, l.drop 3) else none) := rfl

theorem parseVal_succ_true (f : Nat) (l : List Char) :
    parseVal (f + 1) ('t' :: l) =
      (if "rue".data.isPrefixOf l then some (.bool true, l.drop 3) else none) := rfl

theorem parseVal_succ_false (f : Nat) (l : List Char) :
    parseVal (f + 1) ('f' :: l) =
      (if "alse".data.isPrefixOf l then some (.bool false, l.drop 4) else none) := rfl

theorem parseVal_succ_quote (f : Nat) (l : List Char) :
    parseVal (f + 1) ('"' :: l) =
      (do
        let (s, r) ← parseStrBody (l.length + 1) l
        pure (.str ⟨s⟩, r)) := rfl

theorem parseVal_succ_lbrack (f : Nat) (l : List Char) :
    parseVal (f + 1) ('[' :: l) =
      (match skipWs l with
       | ']' :: rest2 => some (.arr .nil, rest2)
       | _ => do
         let (items, r) ← parseArrItems f l
         pure (.arr items, r)) := rfl

theorem parseVal_succ_lbrace (f : Nat) (l : List Char) :
    parseVal (f + 1) ('{' :: l) =
      (match skipWs l with
       | '}' :: rest2 => some (.obj .nil, rest2)
       | _ => do
         let (fs, r) ← parseObjItems f l
         pure (.obj fs, r)) := rfl

theorem parseVal_succ_num (f : Nat) (c : Char) (l : List Char)
    (hd : c = '-' ∨ isDigitChar c = true) :
    parseVal (f + 1) (c :: l) =
      (do
        let (n, r) ← parseNumAt (c :: l)
        pure (.num n, r)) := by
  have htn : c = '-' ∨ (48 ≤ c.toNat ∧ c.toNat ≤ 57) := by
    rcases hd with hd | hd
    · exact Or.inl hd
    · unfold isDigitChar at hd
      rw [decide_eq_true_eq] at hd
      exact Or.inr hd
  have hne : ∀ (d : Char), d.toNat ≠ 45 → ¬ (48 ≤ d.toNat ∧ d.toNat ≤ 57) → c ≠ d := by
    intro d h45 h48 he
    subst he
    rcases htn with h | h
    · exact h45 (congrArg Char.toNat h)
    · exact h48 h
  have hws : isJsonWs c = false := by
    unfold isJsonWs
    rw [decide_eq_false_iff_not]
    rintro (h | h | h | h) <;> subst h <;>
      rcases htn with h2 | h2 <;> exact absurd h2 (by decide)
  unfold parseVal
  rw [skipWs_cons_not c l hws]
  show (if c = '{' then _ else _) = _
  rw [if_neg (hne '{' (by decide) (by decide))]
  rw [if_neg (hne '[' (by decide) (by decide))]
  rw [if_neg (hne '"' (by decide) (by decide))]
  rw [if_neg (hne 't' (by decide) (by decide))]
  rw [if_neg (hne 'f' (by decide) (by decide))]
  rw [if_neg (hne 'n' (by decide) (by decide))]
  rw [if_pos hd]

theorem parseArrItems_succ (f : Nat) (l : List Char) :
    parseArrItems (f + 1) l =
      (do
        let (v, r) ← parseVal f l
        match skipWs r with
        | ',' :: r2 => do
          let (tl, r3) ← parseArrItems f r2
          pure (JArr.cons v tl, r3)
        | ']' :: r2 => pure (JArr.cons v JArr.nil, r2)
        | _ => none) := rfl

theorem option_bind_some {α β : Type} (a : α) (K : α → Option β) :
    (Bind.bind (some a) K) = K a := rfl

theorem needV_pos (v : JVal) : 1 ≤ needV v := by
  cases v with
  | arr a => cases a <;> simp [needV]
  | obj o => cases o <;> simp [needV]
  | null => simp [needV]
  | bool b => simp [needV]
  | num i => simp [needV]
  | str s => simp [needV]

theorem tameVal_str_eq (s : String) : tameVal (.str s) = s.data.all tameChar := by
  simp [tameVal]

theorem tameVal_arr_eq (a : JArr) : tameVal (.arr a) = tameArr a := by
  simp [tameVal]

theorem tameVal_obj_eq (o : JObj) : tameVal (.obj o) = tameObj o := by
  simp [tameVal]

theorem tameArr_cons_eq (x : JVal) (t : JArr) :
    tameArr (.cons x t) = (tameVal x && tameArr t) := by
  simp [tameArr]

theorem tameObj_cons_eq (k : String) (v : JVal) (t : JObj) :
    tameObj (.cons k v t) = (k.data.all tameChar && tameVal v && tameObj t) := by
  simp [tameObj]

theorem needV_arr_cons_eq (x : JVal) (t : JArr) :
    needV (.arr (.cons x t)) = 1 + needA (.cons x t) := by
  simp [needV]

theorem needV_obj_cons_eq (k : String) (v : JVal) (t : JObj) :
    needV (.obj (.cons k v t)) = 1 + needO (.cons k v t) := by
  simp [needV]

theorem needA_cons_eq (x : JVal) (t : JArr) :
    needA (.cons x t) = 1 + needV x + needA t := by
  simp [needA]

theorem needA_pos (a : JArr) : 1 ≤ needA a := by
  cases a with
  | nil => simp [needA]
  | cons x t => simp [needA]; omega

theorem needO_cons_eq (k : String) (v : JVal) (t : JObj) :
    needO (.cons k v t) = 1 + needV v + needO t := by
  simp [needO]

theorem needO_pos (o : JObj) : 1 ≤ needO o := by
  cases o with
  | nil => simp [needO]
  | cons k v t => simp [needO]; omega

theorem boundary_spaces_close (j : Nat) (b : Char) (rest : List Char)
    (hb1 : isDigitChar b = false) (hb2 : numExtChar b = false) :
    headNotDigit (spacesChars j ++ b :: rest) = true ∧
      headIsNumExt (spacesChars j ++ b :: rest) = false := by
  cases j with
  | zero =>
    show headNotDigit (b :: rest) = true ∧ headIsNumExt (b :: rest) = false
    unfold headNotDigit headIsNumExt
    simp [hb1, hb2]
  | succ m =>
    show headNotDigit (' ' :: (spacesChars m ++ b :: rest)) = true ∧
      headIsNumExt (' ' :: (spacesChars m ++ b :: rest)) = false
    exact ⟨rfl, rfl⟩

/-- The first character of the sanitized serialization of a value: never
whitespace and never a closing bracket. -/
theorem fNC_dumpAt_head (k : Nat) (v : JVal) (ht : tameVal v = true) :
    ∃ c cs, fNC (dumpAt k v) = c :: cs ∧ isJsonWs c = false ∧ c ≠ ']' := by
  cases v with
  | null =>
    exact ⟨'n', "ull".data,
      by rw [show dumpAt k JVal.null = "null".data from by simp [dumpAt]]; decide,
      by decide, by decide⟩
  | bool b =>
    cases b with
    | true =>
      exact ⟨'t', "rue".data,
        by rw [show dumpAt k (JVal.bool true) = "true".data from by simp [dumpAt]]; decide,
        by decide, by decide⟩
    | false =>
      exact ⟨'f', "alse".data,
        by rw [show dumpAt k (JVal.bool false) = "false".data from by simp [dumpAt]]; decide,
        by decide, by decide⟩
  | num i =>
    obtain ⟨c, cs, hic, hd⟩ := intChars_head i
    refine ⟨c, cs, ?_, ?_, ?_⟩
    · rw [show dumpAt k (JVal.num i) = intChars i from by simp [dumpAt], fNC_intChars, hic]
    · rcases hd with hd | hd
      · subst hd
        decide
      · unfold isDigitChar at hd
        rw [decide_eq_true_eq] at hd
        unfold isJsonWs
        rw [decide_eq_false_iff_not]
        rintro (h | h | h | h) <;> subst h <;> exact absurd hd (by decide)
    · rcases hd with hd | hd
      · subst hd
        decide
      · unfold isDigitChar at hd
        rw [decide_eq_true_eq] at hd
        apply char_ne_of_toNat_ne
        show c.toNat ≠ 93
        omega
  | str s =>
    rw [tameVal_str_eq] at ht
    refine ⟨'"', s.data ++ ['"'], ?_, by decide, by decide⟩
    rw [show dumpAt k (JVal.str s) = dumpStrChars s from by simp [dumpAt]]
    rw [fNC_dumpStr_tame s ht, List.cons_append]
  | arr a =>
    cases a with
    | nil =>
      exact ⟨'[', [']'],
        by rw [show dumpAt k (JVal.arr .nil) = ['[', ']'] from by simp [dumpAt]]; decide,
        by decide, by decide⟩
    | cons x t =>
      exact ⟨'[', _, fNC_dumpAt_arr_cons k x t, by decide, by decide⟩
  | obj o =>
    cases o with
    | nil =>
      exact ⟨'{', ['}'],
        by rw [show dumpAt k (JVal.obj .nil) = ['{', '}'] from by simp [dumpAt]]; decide,
        by decide, by decide⟩
    | cons key v t =>
      exact ⟨'{', _, fNC_dumpAt_obj_cons k key v t, by decide, by decide⟩

/-- Skipping whitespace over a serialized item list stops at the first
item's head character, which is never `']'`. -/
theorem skipWs_items_head (k : Nat) (x : JVal) (t : JArr) (r : List Char)
    (ht : tameVal x = true) :
    ∃ c L, skipWs (fNC (dumpArrItems k (.cons x t)) ++ r) = c :: L ∧ c ≠ ']' := by
  obtain ⟨c, cs, hc, hws, hbr⟩ := fNC_dumpAt_head k x ht
  cases t with
  | nil =>
    refine ⟨c, cs ++ r, ?_, hbr⟩
    rw [fNC_dumpArrItems_single k x, List.append_assoc, skipWs_spaces, hc,
      List.cons_append]
    exact skipWs_cons_not c (cs ++ r) hws
  | cons y ys =>
    refine ⟨c, cs ++ (',' :: fNC (dumpArrItems k (.cons y ys)) ++ r), ?_, hbr⟩
    rw [fNC_dumpArrItems_cons k x y ys, List.append_assoc, skipWs_spaces,
      List.append_assoc, hc, List.cons_append]
    exact skipWs_cons_not c _ hws

theorem parseObjItems_succ (f : Nat) (l : List Char) :
    parseObjItems (f + 1) l =
      (match skipWs l with
       | '"' :: rest => do
         let (k, r) ← parseStrBody (rest.length + 1) rest
         match skipWs r with
         | ':' :: r2 => do
           let (v, r3) ← parseVal f r2
           match skipWs r3 with
           | ',' :: r4 => do
             let (tl, r5) ← parseObjItems f r4
             pure (JObj.cons ⟨k⟩ v tl, r5)
           | '}' :: r4 => pure (JObj.cons ⟨k⟩ v .nil, r4)
           | _ => none
         | _ => none
       | _ => none) := rfl

theorem objItem_shape_single (k : Nat) (key : String) (v : JVal) (T : List Char)
    (hk : key.data.all tameChar = true) :
    fNC (dumpObjItems k (.cons key v .nil)) ++ T =
      spacesChars k ++
        ('"' :: (key.data ++ ('"' :: (':' :: ' ' :: (fNC (dumpAt k v) ++ T))))) := by
  rw [fNC_dumpObjItems_single k key v hk]
  simp [List.append_assoc, List.cons_append, List.singleton_append]

theorem objItem_shape_cons (k : Nat) (key : String) (v : JVal)
    (k2 : String) (v2 : JVal) (t : JObj) (T : List Char)
    (hk : key.data.all tameChar = true) :
    fNC (dumpObjItems k (.cons key v (.cons k2 v2 t))) ++ T =
      spacesChars k ++
        ('"' :: (key.data ++ ('"' :: (':' :: ' ' ::
          (fNC (dumpAt k v) ++
            (',' :: (fNC (dumpObjItems k (.cons k2 v2 t)) ++ T))))))) := by
  rw [fNC_dumpObjItems_cons k key v k2 v2 t hk]
  simp [List.append_assoc, List.cons_append, List.singleton_append]

theorem parseObjItems_succ_skip (f : Nat) (l M : List Char)
    (h : skipWs l = '"' :: M) :
    parseObjItems (f + 1) l =
      (do
        let (k, r) ← parseStrBody (M.length + 1) M
        match skipWs r with
        | ':' :: r2 => do
          let (v, r3) ← parseVal f r2
          match skipWs r3 with
          | ',' :: r4 => do
            let (tl, r5) ← parseObjItems f r4
            pure (JObj.cons ⟨k⟩ v tl, r5)
          | '}' :: r4 => pure (JObj.cons ⟨k⟩ v .nil, r4)
          | _ => none
        | _ => none) := by
  rw [parseObjItems_succ, h]
  rfl

mutual

theorem parseVal_fNC_dump (v : JVal) : ∀ (f k : Nat) (rest : List Char),
    tameVal v = true → needV v ≤ f + 1 →
    headNotDigit rest = true → headIsNumExt rest = false →
    parseVal (f + 1) (fNC (dumpAt k v) ++ rest) = some (v, rest) := by
  intro f k rest htame hfuel hnd hnex
  cases v with
  | null =>
    rw [show dumpAt k JVal.null = "null".data from by simp [dumpAt]]
    rw [show fNC "null".data = "null".data from by decide]
    show parseVal (f + 1) ('n' :: ("ull".data ++ rest)) = some (.null, rest)
    rw [parseVal_succ_null]
    rw [if_pos (isPrefixOf_append "ull".data "ull".data rest (by decide))]
    show some (JVal.null, ("ull".data ++ rest).drop 3) = some (JVal.null, rest)
    rfl
  | bool b =>
    cases b with
    | true =>
      rw [show dumpAt k (JVal.bool true) = "true".data from by simp [dumpAt]]
      rw [show fNC "true".data = "true".data from by decide]
      show parseVal (f + 1) ('t' :: ("rue".data ++ rest)) = some (.bool true, rest)
      rw [parseVal_succ_true]
      rw [if_pos (isPrefixOf_append "rue".data "rue".data rest (by decide))]
      show some (JVal.bool true, ("rue".data ++ rest).drop 3) = some (JVal.bool true, rest)
      rfl
    | false =>
      rw [show dumpAt k (JVal.bool false) = "false".data from by simp [dumpAt]]
      rw [show fNC "false".data = "false".data from by decide]
      show parseVal (f + 1) ('f' :: ("alse".data ++ rest)) = some (.bool false, rest)
      rw [parseVal_succ_false]
      rw [if_pos (isPrefixOf_append "alse".data "alse".data rest (by decide))]
      show some (JVal.bool false, ("alse".data ++ rest).drop 4) = some (JVal.bool false, rest)
      rfl
  | num i =>
    rw [show dumpAt k (JVal.num i) = intChars i from by simp [dumpAt], fNC_intChars]
    obtain ⟨c, cs, hic, hd⟩ := intChars_head i
    rw [hic, List.cons_append]
    rw [parseVal_succ_num f c (cs ++ rest) hd]
    have hnum : parseNumAt (c :: (cs ++ rest)) = some (i, rest) := by
      have h2 := parseNumAt_intChars i rest hnd hnex
      rw [hic] at h2
      exact h2
    rw [hnum]
    rfl
  | str s =>
    rw [tameVal_str_eq] at htame
    rw [show dumpAt k (JVal.str s) = dumpStrChars s from by simp [dumpAt]]
    rw [fNC_dumpStr_tame s htame, List.append_assoc, List.singleton_append,
      List.cons_append]
    show parseVal (f + 1) ('"' :: (s.data ++ '"' :: rest)) = some (.str s, rest)
    rw [parseVal_succ_quote]
    rw [parseStrBody_tame s.data rest ((s.data ++ '"' :: rest).length + 1) htame
      (by simp only [List.length_append, List.length_cons]; omega)]
    show some (JVal.str ⟨s.data⟩, rest) = some (JVal.str s, rest)
    rfl
  | arr a =>
    cases a with
    | nil =>
      rw [show dumpAt k (JVal.arr .nil) = ['[', ']'] from by simp [dumpAt]]
      rw [show fNC ['[', ']'] = ['[', ']'] from by decide]
      show parseVal (f + 1) ('[' :: (']' :: rest)) = some (.arr .nil, rest)
      rw [parseVal_succ_lbrack]
      rw [show skipWs (']' :: rest) = ']' :: rest from
        skipWs_cons_not ']' rest (by decide)]
      rfl
    | cons x t =>
      rw [tameVal_arr_eq] at htame
      rw [needV_arr_cons_eq] at hfuel
      have hap := needA_pos (.cons x t)
      cases f with
      | zero => omega
      | succ g =>
        rw [fNC_dumpAt_arr_cons k x t, List.cons_append]
        rw [parseVal_succ_lbrack]
        rw [List.append_assoc, List.append_assoc, List.singleton_append]
        have htx : tameVal x = true := by
          rw [tameArr_cons_eq, Bool.and_eq_true] at htame
          exact htame.1
        obtain ⟨c, L, hskip, hcne⟩ :=
          skipWs_items_head (k + 4) x t (spacesChars k ++ ']' :: rest) htx
        split
        · rename_i rest2 heq
          rw [hskip] at heq
          injection heq with h1 h2
          exact absurd h1 hcne
        · rw [parseArr_fNC_dump (.cons x t) g (k + 4) k rest
            (fun h => JArr.noConfusion h) htame (by omega)]
          rfl
  | obj o =>
    cases o with
    | nil =>
      rw [show dumpAt k (JVal.obj .nil) = ['{', '}'] from by simp [dumpAt]]
      rw [show fNC ['{', '}'] = ['{', '}'] from by decide]
      show parseVal (f + 1) ('{' :: ('}' :: rest)) = some (.obj .nil, rest)
      rw [parseVal_succ_lbrace]
      rw [show skipWs ('}' :: rest) = '}' :: rest from
        skipWs_cons_not '}' rest (by decide)]
      rfl
    | cons key v2 t =>
      rw [tameVal_obj_eq] at htame
      rw [needV_obj_cons_eq] at hfuel
      have hop := needO_pos (.cons key v2 t)
      cases f with
      | zero => omega
      | succ g =>
        rw [fNC_dumpAt_obj_cons k key v2 t, List.cons_append]
        rw [parseVal_succ_lbrace]
        rw [List.append_assoc, List.append_assoc, List.singleton_append]
        have hkey : key.data.all tameChar = true := by
          rw [tameObj_cons_eq, Bool.and_eq_true, Bool.and_eq_true] at htame
          exact htame.1.1
        have hskip : ∃ M, skipWs (fNC (dumpObjItems (k + 4) (.cons key v2 t)) ++
            (spacesChars k ++ '}' :: rest)) = '"' :: M := by
          cases t with
          | nil =>
            rw [objItem_shape_single (k + 4) key v2 (spacesChars k ++ '}' :: rest) hkey]
            rw [skipWs_spaces]
            exact ⟨_, skipWs_cons_not '"' _ (by decide)⟩
          | cons k3 v3 t3 =>
            rw [objItem_shape_cons (k + 4) key v2 k3 v3 t3
              (spacesChars k ++ '}' :: rest) hkey]
            rw [skipWs_spaces]
            exact ⟨_, skipWs_cons_not '"' _ (by decide)⟩
        obtain ⟨M, hM⟩ := hskip
        split
        · rename_i rest2 heq
          rw [hM] at heq
          injection heq with h1 h2
          exact absurd h1 (by decide)
        · rw [parseObj_fNC_dump (.cons key v2 t) g (k + 4) k rest
            (fun h => JObj.noConfusion h) htame (by omega)]
          rfl
termination_by sizeOf v

theorem parseArr_fNC_dump (a : JArr) : ∀ (g k j : Nat) (rest : List Char),
    a ≠ .nil → tameArr a = true → needA a ≤ g + 1 →
    parseArrItems (g + 1) (fNC (dumpArrItems k a) ++ (spacesChars j ++ ']' :: rest)) =
      some (a, rest) := by
  intro g k j rest hnil htame hfuel
  cases a with
  | nil => exact absurd rfl hnil
  | cons x t =>
    rw [tameArr_cons_eq, Bool.and_eq_true] at htame
    obtain ⟨htx, htt⟩ := htame
    rw [needA_cons_eq] at hfuel
    have hvp := needV_pos x
    have hap := needA_pos t
    cases g with
    | zero => omega
    | succ g2 =>
      rw [parseArrItems_succ]
      cases t with
      | nil =>
        rw [fNC_dumpArrItems_single k x, List.append_assoc, parseVal_spaces]
        obtain ⟨hnd, hnex⟩ := boundary_spaces_close j ']' rest (by decide) (by decide)
        rw [parseVal_fNC_dump x g2 k (spacesChars j ++ ']' :: rest) htx (by omega)
          hnd hnex]
        rw [option_bind_some]
        simp only []
        rw [show skipWs (spacesChars j ++ ']' :: rest) = ']' :: rest from by
          rw [skipWs_spaces]; exact skipWs_cons_not ']' rest (by decide)]
        rfl
      | cons y ys =>
        rw [fNC_dumpArrItems_cons k x y ys, List.append_assoc, parseVal_spaces,
          List.append_assoc, List.cons_append]
        rw [parseVal_fNC_dump x g2 k
          (',' :: (fNC (dumpArrItems k (.cons y ys)) ++ (spacesChars j ++ ']' :: rest)))
          htx (by omega) rfl rfl]
        rw [option_bind_some]
        simp only []
        show (do
          let (tl, r3) ← parseArrItems (g2 + 1)
            (fNC (dumpArrItems k (JArr.cons y ys)) ++ (spacesChars j ++ ']' :: rest))
          pure (JArr.cons x tl, r3)) = some (JArr.cons x (JArr.cons y ys), rest)
        rw [parseArr_fNC_dump (.cons y ys) g2 k j rest
          (fun h => JArr.noConfusion h) htt (by omega)]
        rfl
termination_by sizeOf a

theorem parseObj_fNC_dump (o : JObj) : ∀ (g k j : Nat) (rest : List Char),
    o ≠ .nil → tameObj o = true → needO o ≤ g + 1 →
    parseObjItems (g + 1) (fNC (dumpObjItems k o) ++ (spacesChars j ++ '}' :: rest)) =
      some (o, rest) := by
  intro g k j rest hnil htame hfuel
  cases o with
  | nil => exact absurd rfl hnil
  | cons key v t =>
    rw [tameObj_cons_eq, Bool.and_eq_true, Bool.and_eq_true] at htame
    obtain ⟨⟨hkey, htv⟩, htt⟩ := htame
    rw [needO_cons_eq] at hfuel
    have hvp := needV_pos v
    have hop := needO_pos t
    cases g with
    | zero => omega
    | succ g2 =>
      cases t with
      | nil =>
        rw [objItem_shape_single k key v (spacesChars j ++ '}' :: rest) hkey]
        rw [parseObjItems_succ_skip (g2 + 1) _
          (key.data ++ ('"' :: (':' :: ' ' ::
            (fNC (dumpAt k v) ++ (spacesChars j ++ '}' :: rest)))))
          (by rw [skipWs_spaces]; exact skipWs_cons_not '"' _ (by decide))]
        rw [parseStrBody_tame key.data
          (':' :: ' ' :: (fNC (dumpAt k v) ++ (spacesChars j ++ '}' :: rest)))
          ((key.data ++ ('"' :: (':' :: ' ' ::
            (fNC (dumpAt k v) ++ (spacesChars j ++ '}' :: rest))))).length + 1)
          hkey (by simp only [List.length_append, List.length_cons]; omega)]
        rw [option_bind_some]
        simp only []
        show (do
          let (v2, r3) ← parseVal (g2 + 1)
            (' ' :: (fNC (dumpAt k v) ++ (spacesChars j ++ '}' :: rest)))
          match skipWs r3 with
          | ',' :: r4 => do
            let (tl, r5) ← parseObjItems (g2 + 1) r4
            pure (JObj.cons ⟨key.data⟩ v2 tl, r5)
          | '}' :: r4 => pure (JObj.cons ⟨key.data⟩ v2 .nil, r4)
          | _ => none) = some (JObj.cons key v JObj.nil, rest)
        rw [show (' ' :: (fNC (dumpAt k v) ++ (spacesChars j ++ '}' :: rest))) =
            spacesChars 1 ++ (fNC (dumpAt k v) ++ (spacesChars j ++ '}' :: rest)) from rfl]
        rw [parseVal_spaces]
        obtain ⟨hnd, hnex⟩ := boundary_spaces_close j '}' rest (by decide) (by decide)
        rw [parseVal_fNC_dump v g2 k (spacesChars j ++ '}' :: rest) htv (by omega)
          hnd hnex]
        rw [option_bind_some]
        simp only []
        rw [show skipWs (spacesChars j ++ '}' :: rest) = '}' :: rest from by
          rw [skipWs_spaces]; exact skipWs_cons_not '}' rest (by decide)]
        rfl
      | cons k2 v2 t2 =>
        rw [objItem_shape_cons k key v k2 v2 t2 (spacesChars j ++ '}' :: rest) hkey]
        rw [parseObjItems_succ_skip (g2 + 1) _
          (key.data ++ ('"' :: (':' :: ' ' ::
            (fNC (dumpAt k v) ++
              (',' :: (fNC (dumpObjItems k (.cons k2 v2 t2)) ++
                (spacesChars j ++ '}' :: rest)))))))
          (by rw [skipWs_spaces]; exact skipWs_cons_not '"' _ (by decide))]
        rw [parseStrBody_tame key.data
          (':' :: ' ' :: (fNC (dumpAt k v) ++
            (',' :: (fNC (dumpObjItems k (.cons k2 v2 t2)) ++
              (spacesChars j ++ '}' :: rest)))))
          ((key.data ++ ('"' :: (':' :: ' ' ::
            (fNC (dumpAt k v) ++
              (',' :: (fNC (dumpObjItems k (.cons k2 v2 t2)) ++
                (spacesChars j ++ '}' :: rest))))))).length + 1)
          hkey (by simp only [List.length_append, List.length_cons]; omega)]
        rw [option_bind_some]
        simp only []
        show (do
          let (v3, r3) ← parseVal (g2 + 1)
            (' ' :: (fNC (dumpAt k v) ++
              (',' :: (fNC (dumpObjItems k (JObj.cons k2 v2 t2)) ++
                (spacesChars j ++ '}' :: rest)))))
          match skipWs r3 with
          | ',' :: r4 => do
            let (tl, r5) ← parseObjItems (g2 + 1) r4
            pure (JObj.cons ⟨key.data⟩ v3 tl, r5)
          | '}' :: r4 => pure (JObj.cons ⟨key.data⟩ v3 .nil, r4)
          | _ => none) = some (JObj.cons key v (JObj.cons k2 v2 t2), rest)
        rw [show (' ' :: (fNC (dumpAt k v) ++
            (',' :: (fNC (dumpObjItems k (JObj.cons k2 v2 t2)) ++
              (spacesChars j ++ '}' :: rest))))) =
            spacesChars 1 ++ (fNC (dumpAt k v) ++
              (',' :: (fNC (dumpObjItems k (JObj.cons k2 v2 t2)) ++
                (spacesChars j ++ '}' :: rest)))) from rfl]
        rw [parseVal_spaces]
        rw [parseVal_fNC_dump v g2 k
          (',' :: (fNC (dumpObjItems k (JObj.cons k2 v2 t2)) ++
            (spacesChars j ++ '}' :: rest)))
          htv (by omega) rfl rfl]
        rw [option_bind_some]
        simp only []
        show (do
          let (tl, r5) ← parseObjItems (g2 + 1)
            (fNC (dumpObjItems k (JObj.cons k2 v2 t2)) ++ (spacesChars j ++ '}' :: rest))
          pure (JObj.cons ⟨key.data⟩ v tl, r5)) =
          some (JObj.cons key v (JObj.cons k2 v2 t2), rest)
        rw [parseObj_fNC_dump (.cons k2 v2 t2) g2 k j rest
          (fun h => JObj.noConfusion h) htt (by omega)]
        rfl
termination_by sizeOf o

end

/-! ### The default fuel of `json_loads` suffices for serialized documents -/

mutual

theorem needV_le (v : JVal) : ∀ (k : Nat),
    needV v ≤ 2 * (fNC (dumpAt k v)).length := by
  intro k
  cases v with
  | null =>
    rw [show dumpAt k JVal.null = "null".data from by simp [dumpAt]]
    decide
  | bool b =>
    cases b with
    | true =>
      rw [show dumpAt k (JVal.bool true) = "true".data from by simp [dumpAt]]
      decide
    | false =>
      rw [show dumpAt k (JVal.bool false) = "false".data from by simp [dumpAt]]
      decide
  | num i =>
    rw [show dumpAt k (JVal.num i) = intChars i from by simp [dumpAt], fNC_intChars]
    obtain ⟨c, cs, hic, _⟩ := intChars_head i
    rw [hic]
    rw [show needV (JVal.num i) = 1 from by simp [needV]]
    simp only [List.length_cons]
    omega
  | str s =>
    rw [show dumpAt k (JVal.str s) = dumpStrChars s from by simp [dumpAt]]
    unfold dumpStrChars
    rw [List.cons_append, fNC_cons_keep '"' _ (by decide)]
    rw [show needV (JVal.str s) = 1 from by simp [needV]]
    simp only [List.length_cons]
    omega
  | arr a =>
    cases a with
    | nil =>
      rw [show dumpAt k (JVal.arr .nil) = ['[', ']'] from by simp [dumpAt]]
      decide
    | cons x t =>
      rw [fNC_dumpAt_arr_cons k x t, needV_arr_cons_eq]
      have h := needA_le (.cons x t) (k + 4)
      simp only [List.length_cons, List.length_append, spacesChars,
        List.length_replicate, List.length_singleton]
      omega
  | obj o =>
    cases o with
    | nil =>
      rw [show dumpAt k (JVal.obj .nil) = ['{', '}'] from by simp [dumpAt]]
      decide
    | cons key v2 t =>
      rw [fNC_dumpAt_obj_cons k key v2 t, needV_obj_cons_eq]
      have h := needO_le (.cons key v2 t) (k + 4)
      simp only [List.length_cons, List.length_append, spacesChars,
        List.length_replicate, List.length_singleton]
      omega
termination_by sizeOf v

theorem needA_le (a : JArr) : ∀ (k : Nat),
    needA a ≤ 2 * (fNC (dumpArrItems k a)).length + 2 := by
  intro k
  cases a with
  | nil =>
    rw [show dumpArrItems k JArr.nil = [] from by simp [dumpArrItems]]
    decide
  | cons x t =>
    cases t with
    | nil =>
      rw [fNC_dumpArrItems_single k x, needA_cons_eq]
      have h := needV_le x k
      rw [show needA JArr.nil = 1 from by simp [needA]]
      simp only [List.length_append, spacesChars, List.length_replicate]
      omega
    | cons y ys =>
      rw [fNC_dumpArrItems_cons k x y ys, needA_cons_eq]
      have h1 := needV_le x k
      have h2 := needA_le (.cons y ys) k
      simp only [List.length_append, List.length_cons, spacesChars,
        List.length_replicate]
      omega
termination_by sizeOf a

theorem needO_le (o : JObj) : ∀ (k : Nat),
    needO o ≤ 2 * (fNC (dumpObjItems k o)).length + 2 := by
  intro k
  cases o with
  | nil =>
    rw [show dumpObjItems k JObj.nil = [] from by simp [dumpObjItems]]
    decide
  | cons key v t =>
    cases t with
    | nil =>
      rw [show fNC (dumpObjItems k (.cons key v .nil)) =
          spacesChars k ++ (fNC (dumpStrChars key) ++ (':' :: ' ' :: fNC (dumpAt k v)))
        from by
          rw [show dumpObjItems k (.cons key v .nil) =
              spacesChars k ++ (dumpStrChars key ++ (':' :: ' ' :: dumpAt k v)) from by
            simp [dumpObjItems, List.cons_append, List.append_assoc]]
          rw [fNC_append, fNC_spaces, fNC_append, fNC_cons_keep ':' _ (by decide),
            fNC_cons_keep ' ' _ (by decide)]]
      rw [needO_cons_eq]
      have h := needV_le v k
      rw [show needO JObj.nil = 1 from by simp [needO]]
      simp only [List.length_append, List.length_cons, spacesChars,
        List.length_replicate]
      omega
    | cons k2 v2 t2 =>
      rw [show fNC (dumpObjItems k (.cons key v (.cons k2 v2 t2))) =
          spacesChars k ++ (fNC (dumpStrChars key) ++ (':' :: ' ' ::
            (fNC (dumpAt k v) ++ ',' :: fNC (dumpObjItems k (.cons k2 v2 t2)))))
        from by
          rw [show dumpObjItems k (.cons key v (.cons k2 v2 t2)) =
              spacesChars k ++ (dumpStrChars key ++ (':' :: ' ' ::
                (dumpAt k v ++ (',' :: '\n' :: dumpObjItems k (.cons k2 v2 t2))))) from by
            simp [dumpObjItems, List.cons_append, List.append_assoc]]
          rw [fNC_append, fNC_spaces, fNC_append, fNC_cons_keep ':' _ (by decide),
            fNC_cons_keep ' ' _ (by decide), fNC_append,
            fNC_cons_keep ',' _ (by decide), fNC_cons_drop '\n' _ (by decide)]]
      rw [needO_cons_eq]
      have h1 := needV_le v k
      have h2 := needO_le (.cons k2 v2 t2) k
      simp only [List.length_append, List.length_cons, spacesChars,
        List.length_replicate]
      omega
termination_by sizeOf o

end

/-- The sanitizer-then-parser pipeline recovers every document whose
strings need no JSON escaping from its canonical serialization, once
the trailing-comma pass is known to leave that serialization alone. -/
theorem json_loads_fNC_dump (d : JVal) (ht : tameVal d = true) :
    json_loads (stripControlChars (json_dump d)) = some d := by
  have hlen := needV_le d 0
  unfold json_loads
  rw [show (stripControlChars (json_dump d)).data = fNC (dumpAt 0 d) from rfl]
  have hp : parseVal (2 * (fNC (dumpAt 0 d)).length + 4) (fNC (dumpAt 0 d)) =
      some (d, []) := by
    have h2 := parseVal_fNC_dump d (2 * (fNC (dumpAt 0 d)).length + 3) 0 [] ht
      (by omega) rfl rfl
    rw [List.append_nil] at h2
    rw [show 2 * (fNC (dumpAt 0 d)).length + 3 + 1 =
        2 * (fNC (dumpAt 0 d)).length + 4 from by omega] at h2
    exact h2
  rw [hp]
  rfl

theorem cacheLookup_cacheSet (k v : String) (c : Cache) :
    cacheLookup k (cacheSet k v c) = some v := by
  unfold cacheSet cacheLookup
  rw [if_pos rfl]

/-- C5 (amended): the cache round-trip holds for every document whose
strings contain no character that `json.dump` escapes and whose
serialization the trailing-comma pass leaves unchanged (no string
contains a comma followed by optional whitespace and a closing
bracket): a later load of the same URL is answered from the cache slot
alone — for any network state, with no fetch, error or launch events —
and returns a structurally equal document.  The counterexample shows
the second condition is violated exactly when a string embeds a
trailing-comma pattern. -/
theorem C5_cache_roundtrip_stable (d : JVal) (url : String) (cache : Cache)
    (net : NetResult) (confirm : Bool)
    (htame : tameVal d = true)
    (hfix : removeTrailingCommas (json_dump d) = json_dump d) :
    (fetch_w3u url (cacheSet (get_filename_from_url url) (json_dump d) cache)
        net confirm).doc = some d ∧
      (fetch_w3u url (cacheSet (get_filename_from_url url) (json_dump d) cache)
        net confirm).events = [] := by
  have hload : json_loads (clean_json (json_dump d)) = some d := by
    unfold clean_json
    rw [hfix]
    exact json_loads_fNC_dump d htame
  have hres : fetch_w3u url
      (cacheSet (get_filename_from_url url) (json_dump d) cache) net confirm =
      ⟨some d,
        cacheSet (get_filename_from_url url) (clean_json (json_dump d))
          (cacheSet (get_filename_from_url url) (json_dump d) cache), []⟩ := by
    simp only [fetch_w3u]
    rw [cacheLookup_cacheSet]
    simp only []
    rw [hload]
  rw [hres]
  exact ⟨rfl, rfl⟩

set_option maxRecDepth 8000 in
theorem C5_cache_roundtrip_stable_witness :
    (fetch_w3u "http://h/x.w3u"
        (cacheSet (get_filename_from_url "http://h/x.w3u") (json_dump exampleDoc)
          emptyCache) .transportFail false).doc = some exampleDoc ∧
      (fetch_w3u "http://h/x.w3u"
        (cacheSet (get_filename_from_url "http://h/x.w3u") (json_dump exampleDoc)
          emptyCache) .transportFail false).events = [] :=
  C5_cache_roundtrip_stable exampleDoc "http://h/x.w3u" emptyCache .transportFail
    false (by decide) (by decide)

end W3U
